import Mathlib

/-!
Verification of the tabular data-integration and redundancy-resolution engine
of the LIER_METABOLIMICS repository (src/App.tsx, src/unnamed/part_000).

Shallow embedding conventions:
  - JavaScript numbers are embedded as exact rationals.  To keep every
    definition kernel-computable (so concrete runs can be settled by decide),
    rationals are represented by the type Q below: an integer numerator and a
    positive natural denominator, not necessarily reduced.  A homomorphism
    toRat into Mathlib's rational numbers is proved for every operation, and
    all universally quantified reasoning happens on the Mathlib side.
  - Math.sqrt is modelled by Q.ratSqrt, which is exact whenever the argument
    is the square of a rational and returns an integer floor approximation
    otherwise.  No universally quantified theorem in this file depends on the
    values of Q.ratSqrt, and every concrete evaluation below exercises it only
    at perfect squares.
  - A table cell is a Value: a string, a number, or null; an absent key
    (JavaScript undefined) is Option.none.  Rows are association lists with
    unique keys, mirroring JavaScript objects.
  - String(x) and the Number/parseFloat/parseInt conversions are modelled for
    the decimal forms exercised by the engine (no exponent, hexadecimal or
    Infinity literals, which cannot arise from the arithmetic modelled here).
-/

/-- Exact rational arithmetic on unreduced numerator/denominator pairs.
The denominator is kept positive so that order and equality can be decided by
cross multiplication, which the kernel can evaluate. -/
structure Q where
  num : Int
  den : Nat
  den_pos : 0 < den
deriving DecidableEq

def Q.zero : Q := ⟨0, 1, Nat.one_pos⟩

def Q.ofNat (n : Nat) : Q := ⟨Int.ofNat n, 1, Nat.one_pos⟩

def Q.ofInt (n : Int) : Q := ⟨n, 1, Nat.one_pos⟩

def Q.add (a b : Q) : Q :=
  ⟨a.num * Int.ofNat b.den + b.num * Int.ofNat a.den, a.den * b.den,
    Nat.mul_pos a.den_pos b.den_pos⟩

def Q.neg (a : Q) : Q := ⟨-a.num, a.den, a.den_pos⟩

def Q.sub (a b : Q) : Q := a.add b.neg

def Q.mul (a b : Q) : Q :=
  ⟨a.num * b.num, a.den * b.den, Nat.mul_pos a.den_pos b.den_pos⟩

/-- Multiplicative inverse; the inverse of zero is zero (the engine only ever
divides by values it has checked to be nonzero, so this convention, which
matches Mathlib's, is never observable). -/

def Q.inv (a : Q) : Q :=
  if h : 0 < a.num then
    ⟨Int.ofNat a.den, a.num.toNat, by omega⟩
  else if h2 : a.num < 0 then
    ⟨-(Int.ofNat a.den), (-a.num).toNat, by omega⟩
  else Q.zero

def Q.div (a b : Q) : Q := a.mul b.inv

def Q.lt (a b : Q) : Bool := a.num * Int.ofNat b.den < b.num * Int.ofNat a.den

def Q.le (a b : Q) : Bool := a.num * Int.ofNat b.den ≤ b.num * Int.ofNat a.den

def Q.beq (a b : Q) : Bool := a.num * Int.ofNat b.den = b.num * Int.ofNat a.den

/-- Math.min on two numbers. -/

def Q.min (a b : Q) : Q := if Q.le a b then a else b

/-- Math.abs. -/

def Q.abs (a : Q) : Q := ⟨Int.ofNat a.num.natAbs, a.den, a.den_pos⟩

/-- Sum of a list of numbers, as reduce((a, b) => a + b, 0). -/

def Q.sum (l : List Q) : Q := l.foldl Q.add Q.zero

/-- Fuel-driven Euclidean algorithm (structural recursion so that the kernel
can evaluate it; the fuel a+2 always suffices). -/

def Q.gcdF : Nat → Nat → Nat → Nat
  | 0, _, b => b
  | _ + 1, 0, b => b
  | f + 1, a, b => Q.gcdF f (b % a) a

/-- Fuel-driven Newton iteration for the integer square root. -/

def Q.isqrtAux : Nat → Nat → Nat → Nat
  | 0, _, g => g
  | f + 1, n, g =>
    let g2 := (g + n / g) / 2
    if g2 < g then Q.isqrtAux f n g2 else g

def Q.isqrt (n : Nat) : Nat :=
  if n ≤ 1 then n else Q.isqrtAux (n + 2) n n

def Q.mk2 (n : Int) (d : Nat) : Q :=
  if h : 0 < d then ⟨n, d, h⟩ else ⟨n, 1, Nat.one_pos⟩

/-- Model of Math.sqrt: exact on rational perfect squares (after reduction),
an integer floor approximation otherwise, and zero on negative input.  No
universally quantified theorem depends on its values. -/

def Q.ratSqrt (a : Q) : Q :=
  if a.num < 0 then Q.zero
  else
    let n := a.num.toNat
    let g := Q.gcdF (n + 2) n a.den
    if 0 < g then
      let n2 := n / g
      let d2 := a.den / g
      let sn := Q.isqrt n2
      let sd := Q.isqrt d2
      if sn * sn = n2 ∧ sd * sd = d2 then Q.mk2 (Int.ofNat sn) sd
      else Q.ofNat (Q.isqrt (n / a.den))
    else Q.ofNat (Q.isqrt (n / a.den))

/-- Interpretation of a Q value as a Mathlib rational. -/

def Q.toRat (a : Q) : ℚ := (a.num : ℚ) / (a.den : ℚ)

/-! ## JavaScript string primitives (structural, kernel-computable) -/
/-- ASCII upper-casing of one character, as used by toUpperCase on the
header names occurring in this code base. -/
def upChar (c : Char) : Char :=
  match c with
  | 'a' => 'A' | 'b' => 'B' | 'c' => 'C' | 'd' => 'D' | 'e' => 'E'
  | 'f' => 'F' | 'g' => 'G' | 'h' => 'H' | 'i' => 'I' | 'j' => 'J'
  | 'k' => 'K' | 'l' => 'L' | 'm' => 'M' | 'n' => 'N' | 'o' => 'O'
  | 'p' => 'P' | 'q' => 'Q' | 'r' => 'R' | 's' => 'S' | 't' => 'T'
  | 'u' => 'U' | 'v' => 'V' | 'w' => 'W' | 'x' => 'X' | 'y' => 'Y'
  | 'z' => 'Z'
  | _ => c

/-- String.prototype.toUpperCase. -/

def jsToUpper (s : String) : String := String.mk (s.data.map upChar)

/-- String.prototype.startsWith. -/

def jsStartsWith (s p : String) : Bool := p.data.isPrefixOf s.data

/-- Whitespace recognised by String.prototype.trim (the ASCII subset). -/

def jsIsWs (c : Char) : Bool := c == ' ' || c == '\t' || c == '\n' || c == '\r'

def trimChars (cs : List Char) : List Char :=
  ((cs.dropWhile jsIsWs).reverse.dropWhile jsIsWs).reverse

/-- String.prototype.trim. -/

def jsTrim (s : String) : String := String.mk (trimChars s.data)

def digitVal (c : Char) : Option Nat :=
  if '0' ≤ c ∧ c ≤ '9' then some (c.toNat - Char.toNat '0') else none

/-- Reads a maximal run of decimal digits, returning the accumulated value,
the number of digits read, and the rest of the input. -/

def readDigits : List Char → Nat → Nat → Nat × Nat × List Char
  | [], acc, cnt => (acc, cnt, [])
  | c :: cs, acc, cnt =>
    match digitVal c with
    | some d => readDigits cs (acc * 10 + d) (cnt + 1)
    | none => (acc, cnt, c :: cs)

def readSign : List Char → Bool × List Char
  | '-' :: cs => (true, cs)
  | '+' :: cs => (false, cs)
  | cs => (false, cs)

def signedQ (negative : Bool) (ip fp : Nat) (fpCnt : Nat) : Q :=
  let n : Int := Int.ofNat (ip * 10 ^ fpCnt + fp)
  Q.mk2 (if negative then -n else n) (10 ^ fpCnt)

/-- Number(string) on the decimal forms arising in this code base: the string
is trimmed, the empty string converts to 0, and anything that is not a fully
consumed signed decimal literal is NaN (Option.none).  Exponent, hexadecimal
and Infinity forms are not modelled; they cannot arise from the arithmetic
modelled here. -/

def jsNumberOfChars (cs0 : List Char) : Option Q :=
  match trimChars cs0 with
  | [] => some Q.zero
  | cs =>
    let (neg, cs1) := readSign cs
    let (ip, ipCnt, cs2) := readDigits cs1 0 0
    match cs2 with
    | '.' :: cs3 =>
      let (fp, fpCnt, cs4) := readDigits cs3 0 0
      if ipCnt + fpCnt = 0 then none
      else if cs4 = [] then some (signedQ neg ip fp fpCnt) else none
    | rest =>
      if ipCnt = 0 then none
      else if rest = [] then some (signedQ neg ip 0 0) else none

/-- parseFloat: leading whitespace is skipped, a maximal signed decimal
prefix is read, trailing garbage is ignored; NaN when no digit is read. -/

def jsParseFloat (s : String) : Option Q :=
  let cs := s.data.dropWhile jsIsWs
  let (neg, cs1) := readSign cs
  let (ip, ipCnt, cs2) := readDigits cs1 0 0
  match cs2 with
  | '.' :: cs3 =>
    let (fp, fpCnt, _) := readDigits cs3 0 0
    if ipCnt + fpCnt = 0 then none else some (signedQ neg ip fp fpCnt)
  | _ => if ipCnt = 0 then none else some (signedQ neg ip 0 0)

/-- parseInt with radix 10: leading whitespace skipped, maximal signed run of
decimal digits read, everything after it ignored; NaN when no digit. -/

def jsParseInt (s : String) : Option Q :=
  let cs := s.data.dropWhile jsIsWs
  let (neg, cs1) := readSign cs
  let (ip, ipCnt, _) := readDigits cs1 0 0
  if ipCnt = 0 then none else some (signedQ neg ip 0 0)

/-- Least k with den dividing 10 to the k, when one exists below 64; used to
print exactly those rationals that have a finite decimal expansion (every
JavaScript float does). -/

def decExp (d : Nat) : Option Nat := (List.range 64).find? (fun k => 10 ^ k % d == 0)

def padLeftZeros (k : Nat) (s : List Char) : List Char :=
  List.replicate (k - s.length) '0' ++ s

/-- Strips trailing zeros of a fractional representation and then a trailing
decimal point, so that the output agrees with the JavaScript formatting of
the same real number regardless of the internal representation. -/

def stripFrac (s : List Char) : List Char :=
  ((s.reverse.dropWhile (fun c => c == '0')).dropWhile (fun c => c == '.')).reverse

/-- String(number) for numbers with a finite decimal expansion (every actual
JavaScript number); rationals without one fall back to a fraction notation
that no theorem below depends on. -/

def numToString (q : Q) : String :=
  let sign : List Char := if q.num < 0 then ['-'] else []
  let n := q.num.natAbs
  match decExp q.den with
  | some 0 => String.mk (sign ++ (toString (n / q.den)).data)
  | some k =>
    let scaled := n * (10 ^ k / q.den)
    let ip := scaled / 10 ^ k
    let fp := scaled % 10 ^ k
    String.mk (sign ++ stripFrac ((toString ip).data ++ '.' :: padLeftZeros k (toString fp).data))
  | none => String.mk (sign ++ (toString n).data ++ '/' :: (toString q.den).data)

/-! ## Table data model: cells, rows, tables -/

/-- A table cell: string, number or null.  A key absent from a row object
(JavaScript undefined) is represented outside this type, as Option.none. -/

inductive Value where
  | str : String → Value
  | num : Q → Value
  | null : Value
deriving DecidableEq

/-- JavaScript truthiness test on a cell value. -/

def Value.isFalsy : Value → Bool
  | .str s => s == ""
  | .num q => q.beq Q.zero
  | .null => true

/-- String(v) for a present cell value. -/

def jsToString : Value → String
  | .str s => s
  | .num q => numToString q
  | .null => "null"

/-- String(x) where x may be a missing key (undefined). -/

def jsToStringOpt : Option Value → String
  | none => "undefined"
  | some v => jsToString v

/-- Number(x): undefined is NaN, null is 0, a string is parsed. -/

def jsNumber : Option Value → Option Q
  | none => none
  | some .null => some Q.zero
  | some (.num q) => some q
  | some (.str s) => jsNumberOfChars s.data

/-- Strict equality (===) restricted to the value forms of this model.  On
numbers it compares the represented rationals; distinct runtime types are
never equal. -/

def valueEq : Value → Value → Bool
  | .str a, .str b => a == b
  | .num a, .num b => a.beq b
  | .null, .null => true
  | _, _ => false

/-- Strict equality where either side may be undefined (a missing key);
undefined === undefined holds. -/

def valueEqOpt : Option Value → Option Value → Bool
  | none, none => true
  | some a, some b => valueEq a b
  | _, _ => false

/-- A row is a JavaScript object: an association list with unique keys. -/

abbrev Row : Type := List (String × Value)

/-- Property lookup: the value at the first (in a JavaScript object, only)
binding of the key; none models undefined. -/

def Row.get : Row → String → Option Value
  | [], _ => none
  | p :: r, k => if p.1 == k then some p.2 else Row.get r k

def Row.has : Row → String → Bool
  | [], _ => false
  | p :: r, k => p.1 == k || Row.has r k

/-- Object spread update { ...r, k: v }: overwrites the value in place when
the key exists, appends the binding otherwise. -/

def Row.set : Row → String → Value → Row
  | [], k, v => [(k, v)]
  | p :: r, k, v => if p.1 == k then (k, v) :: r else p :: Row.set r k v

/-- The delete operator: removes the binding of the key. -/

def Row.del : Row → String → Row
  | [], _ => []
  | p :: r, k => if p.1 == k then Row.del r k else p :: Row.del r k

structure Table where
  headers : List String
  rows : List Row
deriving DecidableEq

/-! ## AnnotationArbiter: determineFinalAnnotation (src/App.tsx lines 31-67) -/

/-- ASCII lower-casing of one character, for toLowerCase. -/

def downChar (c : Char) : Char :=
  match c with
  | 'A' => 'a' | 'B' => 'b' | 'C' => 'c' | 'D' => 'd' | 'E' => 'e'
  | 'F' => 'f' | 'G' => 'g' | 'H' => 'h' | 'I' => 'i' | 'J' => 'j'
  | 'K' => 'k' | 'L' => 'l' | 'M' => 'm' | 'N' => 'n' | 'O' => 'o'
  | 'P' => 'p' | 'Q' => 'q' | 'R' => 'r' | 'S' => 's' | 'T' => 't'
  | 'U' => 'u' | 'V' => 'v' | 'W' => 'w' | 'X' => 'x' | 'Y' => 'y'
  | 'Z' => 'z'
  | _ => c

/-- String.prototype.toLowerCase. -/

def jsToLower (s : String) : String := String.mk (s.data.map downChar)

/-- The expression x || Empty-string: a falsy value is replaced by the empty
string. -/

def jsOrEmpty : Option Value → Value
  | none => Value.str ""
  | some v => if v.isFalsy then Value.str "" else v

def qPoint9 : Q := Q.mk2 9 10

def qPoint8 : Q := Q.mk2 8 10

/-- Faithful translation of determineFinalAnnotation (src/App.tsx 31-67). -/

def determineFinalAnnotation (row : Row) : String :=
  let compoundName := jsTrim (jsToString (jsOrEmpty (row.get "Compound_Name")))
  let siriusName := jsTrim (jsToString (jsOrEmpty (row.get "name")))
  if compoundName == "" && siriusName == "" then ""
  else if !(compoundName == "") && siriusName == "" then compoundName
  else if compoundName == "" && !(siriusName == "") then siriusName
  else if jsToLower compoundName == jsToLower siriusName then compoundName
  else
    let mqScore := jsParseFloat (jsToStringOpt (row.get "MQScore"))
    let libQuality := jsToString (jsOrEmpty (row.get "LibraryQualityString"))
    let sharedPeaks := jsParseInt (jsToStringOpt (row.get "SharedPeaks"))
    let mzError := jsParseFloat (jsToStringOpt (row.get "MZErrorPPM"))
    let confidence := jsParseFloat (jsToStringOpt (row.get "ConfidenceScoreExact"))
    let isFbmnStrong :=
      match mqScore, sharedPeaks, mzError with
      | some mq, some sp, some mz =>
        qPoint9.lt mq && libQuality == "Gold" && (Q.ofNat 10).lt sp && mz.abs.lt (Q.ofNat 5)
      | _, _, _ => false
    let isSiriusStrong :=
      match confidence with
      | some c => qPoint8.lt c
      | none => false
    if isFbmnStrong && isSiriusStrong then siriusName
    else if isFbmnStrong then compoundName
    else if isSiriusStrong then siriusName
    else compoundName

/-! ## TableMerger (src/App.tsx lines 240-332, handleFileProcess) -/

instance : BEq Q := ⟨Q.beq⟩

/-- Key-value store insertion as in new Map(entries): overwrites the value
in place when the key exists, appends otherwise, so that later entries with
the same key overwrite earlier ones. -/

def mapSet {κ α : Type} [BEq κ] : List (κ × α) → κ → α → List (κ × α)
  | [], k, v => [(k, v)]
  | p :: m, k, v => if p.1 == k then (k, v) :: m else p :: mapSet m k v

def buildMap {κ α : Type} [BEq κ] (entries : List (κ × α)) : List (κ × α) :=
  entries.foldl (fun m e => mapSet m e.1 e.2) []

def mapGet {κ α : Type} [BEq κ] : List (κ × α) → κ → Option α
  | [], _ => none
  | p :: m, k => if p.1 == k then some p.2 else mapGet m k

/-- The trimmed string key of a row cell, none when the cell is null,
undefined, or trims to the empty string (such rows never match, on either
side of the exact merge). -/

def trimmedKey (x : Option Value) : Option String :=
  match x with
  | none => none
  | some .null => none
  | some v =>
    let k := jsTrim (jsToString v)
    if k == "" then none else some k

/-- First-occurrence deduplication, as spreading a Set built by insertion
into an array. -/

def dedupFirst : List String → List String
  | [] => []
  | x :: xs => x :: (dedupFirst xs).filter (fun y => !(y == x))

/-- Copies the configured append columns from a matched row onto a base row,
with absent values becoming null, as { ...baseRow, ...newRowData }. -/

def appendFrom (appendColumns : List String) (m : Row) (base : Row) : Row :=
  appendColumns.foldl (fun acc col => acc.set col ((m.get col).getD Value.null)) base

/-- New header columns are appended only if not already present
(src/App.tsx 254-255). -/

def mergedHeaders (baseHeaders appendColumns : List String) : List String :=
  baseHeaders ++ appendColumns.filter (fun c => !(baseHeaders.contains c))

/-- The incoming-side key filter of the unmatched-key diagnostic
(src/App.tsx 280): the raw ID cell when it is non-null and does not trim to
the empty string. -/

def idExtract (r : Row) : Option Value :=
  match r.get "ID" with
  | none => none
  | some Value.null => none
  | some v => if jsTrim (jsToString v) == "" then none else some v

/-- The exact-key (ID) merge branch of handleFileProcess
(src/App.tsx 257-283).  Returns the merged table and the unmatched-key
diagnostic list.  In the application the base key set is computed from the
step-1 net table, whose ID column coincides with the running merged table at
every index because ID is never an append column; the model reads it from
the base table. -/

def mergeExact (base incoming : Table) (appendColumns : List String) : Table × List String :=
  let matchMap := buildMap (incoming.rows.filterMap
    (fun r => (trimmedKey (r.get "ID")).map (fun k => (k, r))))
  let newRows := base.rows.map (fun baseRow =>
    match trimmedKey (baseRow.get "ID") with
    | none => baseRow
    | some k =>
      match mapGet matchMap k with
      | some m => appendFrom appendColumns m baseRow
      | none => baseRow)
  let baseIdSet := (base.rows.map (fun r => jsTrim (jsToStringOpt (r.get "ID")))).filter
    (fun s => !(s == ""))
  let uploadedIds := incoming.rows.filterMap idExtract
  let uniqueUploadedIds := dedupFirst (uploadedIds.map (fun v => jsTrim (jsToString v)))
  let foundUnmatched := uniqueUploadedIds.filter (fun idv => !(baseIdSet.contains idv))
  ({ headers := mergedHeaders base.headers appendColumns, rows := newRows }, foundUnmatched)

/-- Math.round-style rounding of toFixed: nearest integer, ties towards
positive infinity. -/

def jsRound (q : Q) : Int := Int.fdiv (2 * q.num + Int.ofNat q.den) (2 * Int.ofNat q.den)

/-- The rational represented by the toFixed(3) key string of a number. -/

def toFixed3 (q : Q) : Q := Q.mk2 (jsRound (q.mul (Q.ofNat 1000))) 1000

/-- The tolerance (ionMass/MZ) merge branch of handleFileProcess
(src/App.tsx 285-315).  Keys are numbers rounded to three decimals; the
unmatched diagnostic list holds the raw (unrounded) incoming cell values in
row order.  As with mergeExact, the base mz set is read from the base table
itself. -/

def mergeTolerance (base incoming : Table) (baseMzKey : String) (appendColumns : List String) :
    Table × List Value :=
  let matchMap := buildMap (incoming.rows.filterMap (fun r =>
    match r.get "ionMass" with
    | none => none
    | some .null => none
    | some v => (jsNumber (some v)).map (fun q => (toFixed3 q, r))))
  let newRows := base.rows.map (fun baseRow =>
    match baseRow.get baseMzKey with
    | none => baseRow
    | some .null => baseRow
    | some v =>
      if jsTrim (jsToString v) == "" then baseRow
      else
        match jsNumber (some v) with
        | none => baseRow
        | some q =>
          match mapGet matchMap (toFixed3 q) with
          | some m => appendFrom appendColumns m baseRow
          | none => baseRow)
  let baseMzSet := base.rows.filterMap (fun r =>
    match r.get baseMzKey with
    | none => none
    | some .null => none
    | some v => (jsNumber (some v)).map toFixed3)
  let foundUnmatched := incoming.rows.filterMap (fun r =>
    match r.get "ionMass" with
    | none => none
    | some .null => none
    | some v =>
      match jsNumber (some v) with
      | none => none
      | some q => if baseMzSet.contains (toFixed3 q) then none else some v)
  ({ headers := mergedHeaders base.headers appendColumns, rows := newRows }, foundUnmatched)

/-! ## ContaminantFilter (src/App.tsx lines 445-481, handleApplyFilter) -/

/-- The row-retention predicate of handleApplyFilter (src/App.tsx 460-470). -/

def keepRow (contaminantList : List String) (row : Row) : Bool :=
  match row.get "Final_Annotation" with
  | none => true
  | some .null => true
  | some v =>
    let a := jsTrim (jsToString v)
    if a == "" then true else !(contaminantList.contains a)

def handleApplyFilter (t : Table) (contaminantList : List String) : Table :=
  { t with rows := t.rows.filter (keepRow contaminantList) }

/-! ## DereplicationEngine (src/App.tsx lines 535-656, handleDereplication) -/

def Retained : String := "保留"

def Removed : String := "删除"

def ExcludedHighMissing : String := "因缺失率过高而剔除"

def ExcludedUnstableQC : String := "因QC不稳定而剔除"

def bioColsOf (headers : List String) : List String :=
  headers.filter (fun h => jsStartsWith (jsToUpper h) "CON_" || jsStartsWith (jsToUpper h) "HBO_")

def qcColsOf (headers : List String) : List String :=
  headers.filter (fun h => jsStartsWith (jsToUpper h) "QC-")

/-- The grouping key: the trimmed resolved annotation when the cell is truthy
and does not trim to the empty string (src/App.tsx 557-566). -/

def annKey (row : Row) : Option String :=
  match row.get "Final_Annotation" with
  | none => none
  | some v =>
    if v.isFalsy then none
    else
      let k := jsTrim (jsToString v)
      if k == "" then none else some k

/-- Appends a row to its group, preserving first-insertion group order, as
the Map of groups does. -/

def addToGroups : List (String × List Row) → String → Row → List (String × List Row)
  | [], k, r => [(k, [r])]
  | (k2, g) :: rest, k, r =>
    if k2 == k then (k2, g ++ [r]) :: rest else (k2, g) :: addToGroups rest k r

/-- Partitions the rows into annotation groups (in first-occurrence order)
and the unknown-annotation rows (in row order). -/

def splitGroups (rows : List Row) : List (String × List Row) × List Row :=
  rows.foldl (fun acc row =>
    match annKey row with
    | some k => (addToGroups acc.1 k row, acc.2)
    | none => (acc.1, acc.2 ++ [row])) ([], [])

/-- Number(row[col]) over the given columns, NaN results dropped
(src/App.tsx 578). -/

def bioNumbers (bioCols : List String) (row : Row) : List Q :=
  (bioCols.map (fun col => jsNumber (row.get col))).filterMap id

/-- missingRate = (missingCount / bioCols.length) * 100 (src/App.tsx 579-580). -/

def missingRate (bioCols : List String) (row : Row) : Q :=
  let bioValues := bioNumbers bioCols row
  let missingCount := bioCols.length - (bioValues.filter (fun v => Q.zero.lt v)).length
  ((Q.ofNat missingCount).div (Q.ofNat bioCols.length)).mul (Q.ofNat 100)

/-- The strictly positive QC values of a row (src/App.tsx 584). -/

def qcValuesOf (qcCols : List String) (row : Row) : List Q :=
  ((qcCols.map (fun col => jsNumber (row.get col))).filterMap id).filter (fun v => Q.zero.lt v)

/-- Outcome of the QC-stability filter; the two excluded branches
(src/App.tsx 589 and 593) are distinguished so that reachability can be
stated, but both carry the same status string in the engine. -/

inductive QcOutcome where
  | fewValues : QcOutcome
  | meanZero : QcOutcome
  | highRsd : Q → QcOutcome
  | pass : Q → QcOutcome
deriving DecidableEq

/-- The QC-stability filter of one row (src/App.tsx 584-595). -/

def qcStage (qcCols : List String) (row : Row) : QcOutcome :=
  let qcValues := qcValuesOf qcCols row
  if qcValues.length < 2 then QcOutcome.fewValues
  else
    let mean := (Q.sum qcValues).div (Q.ofNat qcValues.length)
    if mean.beq Q.zero then QcOutcome.meanZero
    else
      let stdDev := Q.ratSqrt ((Q.sum (qcValues.map (fun x => (x.sub mean).mul (x.sub mean)))).div
        (Q.ofNat (qcValues.length - 1)))
      let rsd := (stdDev.div mean).mul (Q.ofNat 100)
      if (Q.ofNat 30).lt rsd then QcOutcome.highRsd rsd else QcOutcome.pass rsd

/-- The candidate-annotation step of stage 1 (src/App.tsx 577-595): marks a
row with an exclusion status or with its QC RSD. -/

def stage1 (bioCols qcCols : List String) (row : Row) : Row :=
  if (Q.ofNat 50).lt (missingRate bioCols row) then
    Row.set row "_derep_status" (Value.str ExcludedHighMissing)
  else
    match qcStage qcCols row with
    | QcOutcome.fewValues => Row.set row "_qc_rsd" (Value.num Q.zero)
    | QcOutcome.meanZero => Row.set row "_derep_status" (Value.str ExcludedUnstableQC)
    | QcOutcome.highRsd _ => Row.set row "_derep_status" (Value.str ExcludedUnstableQC)
    | QcOutcome.pass rsd => Row.set row "_qc_rsd" (Value.num rsd)

def rsdOf (r : Row) : Q :=
  match r.get "_qc_rsd" with
  | some (.num q) => q
  | _ => Q.zero

def avgOf (r : Row) : Q :=
  match r.get "_avg_intensity" with
  | some (.num q) => q
  | _ => Q.zero

/-- Annotates a candidate with its average positive biological intensity
(src/App.tsx 604-607). -/

def setAvgIntensity (bioCols : List String) (r : Row) : Row :=
  let bioValues := (bioNumbers bioCols r).filter (fun v => Q.zero.lt v)
  let avg := if 0 < bioValues.length then (Q.sum bioValues).div (Q.ofNat bioValues.length)
    else Q.zero
  r.set "_avg_intensity" (Value.num avg)

/-- Math.min over a nonempty list (the empty case is unreachable in the
engine). -/

def qListMin : List Q → Q
  | [] => Q.zero
  | x :: xs => xs.foldl Q.min x

/-- Stage-2 winner selection (src/App.tsx 600-615). -/

def selectWinner (bioCols : List String) (candidates : List Row) : Option Row :=
  match candidates with
  | [] => none
  | [c] => some c
  | _ =>
    let cands := candidates.map (setAvgIntensity bioCols)
    let minRsd := qListMin (cands.map rsdOf)
    let finalCandidates := cands.filter (fun r => (rsdOf r).lt (minRsd.add (Q.ofNat 2)))
    match finalCandidates with
    | [] => none
    | f :: fs =>
      some ((f :: fs).foldl (fun mx row => if (avgOf mx).lt (avgOf row) then row else mx) f)

def winnerMatches (winner : Option Row) (row : Row) : Bool :=
  match winner with
  | none => false
  | some w => valueEqOpt (row.get "ID") (w.get "ID")

/-- Processing of one annotation group (src/App.tsx 570-625). -/

def processGroup (bioCols qcCols : List String) (g : List Row) : List Row :=
  match g with
  | [] => []
  | [r] => [Row.set r "_derep_status" (Value.str Retained)]
  | _ =>
    let candidates := (g.map (stage1 bioCols qcCols)).filter (fun r => !(r.has "_derep_status"))
    let winner := selectWinner bioCols candidates
    g.map (fun row =>
      if winnerMatches winner row then Row.set row "_derep_status" (Value.str Retained)
      else Row.set row "_derep_status" (Value.str Removed))

/-- Index of the last occurrence of an ID among the original row IDs,
mirroring the overwrite semantics of new Map(rows.map((row, i) => [row.ID, i])). -/

def lastIdx : List (Option Value) → Option Value → Option Nat
  | [], _ => none
  | a :: l, x =>
    match lastIdx l x with
    | some i => some (i + 1)
    | none => if valueEqOpt a x then some 0 else none

/-- Sort rank: position of the row ID in the original sequence, with the
list length standing in for Infinity when the ID is not found. -/

def rankOf (origIds : List (Option Value)) (r : Row) : Nat :=
  match lastIdx origIds (r.get "ID") with
  | some i => i
  | none => origIds.length

/-- Stable sort restoring the original row order (src/App.tsx 633-635);
Array.prototype.sort with a consistent comparator is a stable sort, whose
result is unique, so the choice of stable algorithm is immaterial. -/

def sortByOriginal (origRows : List Row) (l : List Row) : List Row :=
  let origIds := origRows.map (fun r => r.get "ID")
  List.insertionSort (fun a b => rankOf origIds a ≤ rankOf origIds b) l

/-- The dereplication engine (src/App.tsx 535-656, pure part).  Error
messages are abbreviated forms of the thrown messages. -/

def derep (t : Table) : Except String Table :=
  let bioCols := bioColsOf t.headers
  let qcCols := qcColsOf t.headers
  if bioCols.isEmpty then Except.error "未找到生物样本列"
  else if qcCols.isEmpty then Except.error "未找到QC样本列"
  else if !(t.headers.contains "ID") then Except.error "数据必须包含 ID 列"
  else
    let gu := splitGroups t.rows
    let processedRows := (gu.1.map (fun g => processGroup bioCols qcCols g.2)).flatten
    let finalRows := processedRows ++ gu.2.map (fun r => Row.set r "_derep_status" (Value.str Retained))
    let finalRows2 := finalRows.map (fun r => (r.del "_qc_rsd").del "_avg_intensity")
    Except.ok { headers := t.headers, rows := sortByOriginal t.rows finalRows2 }

/-- handleDownloadDereplicationResult (src/App.tsx 667-677): keeps the
retained rows and removes the status key before export. -/

def downloadDereplicationResult (t : Table) : Table :=
  { headers := t.headers
    rows := (t.rows.filter (fun r =>
      valueEqOpt (r.get "_derep_status") (some (Value.str Retained)))).map
        (fun r => r.del "_derep_status") }

/-- exportFile (src/unnamed/part_000): rows are projected onto the header
list in order, so keys outside the header list never reach the artifact. -/

def exportFile (t : Table) : List (List (Option Value)) :=
  t.rows.map (fun row => t.headers.map (fun h => row.get h))

/-! ## Concrete scenario C (spec section 8): a dereplication group of three
rows with QC RSDs 5, 6, 40 and biological average intensities 50, 80, 10.
Three QC columns are used so that every sample standard deviation is an
exact rational (values mean-d, mean, mean+d have standard deviation d). -/
def scHeaders : List String := ["ID", "Final_Annotation", "CON_1", "CON_2", "QC-1", "QC-2", "QC-3"]

def scRow1 : Row := [("ID", Value.str "1"), ("Final_Annotation", Value.str "X"),
  ("CON_1", Value.num (Q.ofNat 50)), ("CON_2", Value.num (Q.ofNat 50)),
  ("QC-1", Value.num (Q.ofNat 95)), ("QC-2", Value.num (Q.ofNat 100)),
  ("QC-3", Value.num (Q.ofNat 105))]

def scRow2 : Row := [("ID", Value.str "2"), ("Final_Annotation", Value.str "X"),
  ("CON_1", Value.num (Q.ofNat 80)), ("CON_2", Value.num (Q.ofNat 80)),
  ("QC-1", Value.num (Q.ofNat 94)), ("QC-2", Value.num (Q.ofNat 100)),
  ("QC-3", Value.num (Q.ofNat 106))]

def scRow3 : Row := [("ID", Value.str "3"), ("Final_Annotation", Value.str "X"),
  ("CON_1", Value.num (Q.ofNat 10)), ("CON_2", Value.num (Q.ofNat 10)),
  ("QC-1", Value.num (Q.ofNat 60)), ("QC-2", Value.num (Q.ofNat 100)),
  ("QC-3", Value.num (Q.ofNat 140))]

def scenC : Table := { headers := scHeaders, rows := [scRow1, scRow2, scRow3] }

/-- The surviving stage-1 candidates of the scenario-C group. -/

def scenCCandidates : List Row :=
  (([scRow1, scRow2, scRow3].map (stage1 (bioColsOf scHeaders) (qcColsOf scHeaders))).filter
    (fun r => !(r.has "_derep_status")))

/-- The table produced by the engine on scenario C. -/

def scenCOut : Table :=
  match derep scenC with
  | Except.ok o => o
  | Except.error _ => { headers := [], rows := [] }

/-- Claim-side removal predicate: the row has a present, non-null annotation
whose trimmed form is nonempty and belongs to the exclusion set. -/
def contaminantRemoves (S : List String) (r : Row) : Bool :=
  match r.get "Final_Annotation" with
  | none => false
  | some Value.null => false
  | some v =>
    let a := jsTrim (jsToString v)
    !(a == "") && S.contains a

def nameA (row : Row) : String := jsTrim (jsToString (jsOrEmpty (row.get "Compound_Name")))

def nameB (row : Row) : String := jsTrim (jsToString (jsOrEmpty (row.get "name")))

/-- Claim-side strength of source A: four independently stated conditions,
each false when its numeric field does not parse. -/

def strongA (row : Row) : Bool :=
  (match jsParseFloat (jsToStringOpt (row.get "MQScore")) with
   | some mq => qPoint9.lt mq
   | none => false) &&
  (jsToString (jsOrEmpty (row.get "LibraryQualityString")) == "Gold") &&
  (match jsParseInt (jsToStringOpt (row.get "SharedPeaks")) with
   | some sp => (Q.ofNat 10).lt sp
   | none => false) &&
  (match jsParseFloat (jsToStringOpt (row.get "MZErrorPPM")) with
   | some mz => mz.abs.lt (Q.ofNat 5)
   | none => false)

/-- Claim-side strength of source B: the confidence score parses and
exceeds 0.8. -/

def strongB (row : Row) : Bool :=
  match jsParseFloat (jsToStringOpt (row.get "ConfidenceScoreExact")) with
  | some c => qPoint8.lt c
  | none => false

/-- The decision table exactly as the claim states it. -/

def arbiterSpec (row : Row) : String :=
  if nameA row = "" ∧ nameB row = "" then ""
  else if nameB row = "" then nameA row
  else if nameA row = "" then nameB row
  else if jsToLower (nameA row) = jsToLower (nameB row) then nameA row
  else if strongA row = true ∧ strongB row = true then nameB row
  else if strongA row = true then nameA row
  else if strongB row = true then nameB row
  else nameA row

/-- Claim-side mean of the collected QC values, in Mathlib rationals. -/
def qcMeanR (vals : List Q) : ℚ := (vals.map Q.toRat).sum / (vals.length : ℚ)

/-- Claim-side sample variance with Bessel's correction (n-1 divisor). -/

def qcVarR (vals : List Q) : ℚ :=
  ((vals.map Q.toRat).map (fun x => (x - qcMeanR vals) ^ 2)).sum / ((vals.length : ℚ) - 1)

/-- The engine's mean of the collected QC values (src/App.tsx 588). -/
def meanTerm (qcCols : List String) (row : Row) : Q :=
  (Q.sum (qcValuesOf qcCols row)).div (Q.ofNat (qcValuesOf qcCols row).length)

/-- The engine's Bessel-corrected variance (argument of Math.sqrt,
src/App.tsx 590). -/

def varTerm (qcCols : List String) (row : Row) : Q :=
  (Q.sum ((qcValuesOf qcCols row).map (fun x =>
    (x.sub (meanTerm qcCols row)).mul (x.sub (meanTerm qcCols row))))).div
    (Q.ofNat ((qcValuesOf qcCols row).length - 1))

/-- The engine's rsd = (stdDev / mean) * 100 (src/App.tsx 591). -/

def rsdTerm (qcCols : List String) (row : Row) : Q :=
  ((Q.ratSqrt (varTerm qcCols row)).div (meanTerm qcCols row)).mul (Q.ofNat 100)

/-- The annotated candidate list of stage 2 (src/App.tsx 604-607). -/
def candsOf (bioCols : List String) (candidates : List Row) : List Row :=
  candidates.map (setAvgIntensity bioCols)

/-- The minimum RSD among survivors (src/App.tsx 609). -/

def minRsdOf (bioCols : List String) (candidates : List Row) : Q :=
  qListMin ((candsOf bioCols candidates).map rsdOf)

/-- The rsd < minRsd + 2 window (src/App.tsx 610). -/

def windowOf (bioCols : List String) (candidates : List Row) : List Row :=
  (candsOf bioCols candidates).filter
    (fun r => (rsdOf r).lt ((minRsdOf bioCols candidates).add (Q.ofNat 2)))

/-- Claim-side lookup: the last incoming row whose trimmed ID key equals k. -/
def lastMatch (rows : List Row) (k : String) : Option Row :=
  match rows with
  | [] => none
  | r :: rest =>
    match lastMatch rest k with
    | some m => some m
    | none => if trimmedKey (r.get "ID") == some k then some r else none

/-- The per-key entry list of the exact merge. -/
def keyedEntries (rows : List Row) : List (String × Row) :=
  rows.filterMap (fun r => (trimmedKey (r.get "ID")).map (fun k => (k, r)))

/-- Claim-side result of the exact merge on one base row. -/
def mergeRowSpec (incoming : Table) (appendColumns : List String) (baseRow : Row) : Row :=
  match trimmedKey (baseRow.get "ID") with
  | none => baseRow
  | some k =>
    match lastMatch incoming.rows k with
    | some m => appendFrom appendColumns m baseRow
    | none => baseRow

/-- The raw-value extractor behind the tolerance unmatched list
(src/App.tsx 313-315): the raw ionMass cell of a row that is non-null,
numeric, and whose rounded key is absent from the base rounded-key set. -/
def tolUnmatchedExtract (base : Table) (bk : String) (r : Row) : Option Value :=
  match r.get "ionMass" with
  | none => none
  | some Value.null => none
  | some v =>
    match jsNumber (some v) with
    | none => none
    | some q =>
      if (base.rows.filterMap (fun rb =>
          match rb.get bk with
          | none => none
          | some Value.null => none
          | some vb => (jsNumber (some vb)).map toFixed3)).contains (toFixed3 q) then none
      else some v

/-- A base and incoming pair whose tolerance merge leaves the same unmatched
mass twice: base mass 500, incoming mass 100.1228 in two rows. -/
def wBase : Table :=
  { headers := ["ID", "MZ"]
    rows := [[("ID", Value.str "1"), ("MZ", Value.num (Q.ofNat 500))]] }

def wInc : Table :=
  { headers := ["ID", "ionMass"]
    rows := [[("ID", Value.str "9"), ("ionMass", Value.num (Q.mk2 1001228 10000))],
      [("ID", Value.str "9"), ("ionMass", Value.num (Q.mk2 1001228 10000))]] }

theorem Q.den_ne (a : Q) : ((a.den : ℚ)) ≠ 0 := by
  exact_mod_cast a.den_pos.ne'

theorem Q.toRat_zero : Q.toRat Q.zero = 0 := by
  simp [Q.toRat, Q.zero]

theorem Q.toRat_ofNat (n : Nat) : Q.toRat (Q.ofNat n) = (n : ℚ) := by
  simp [Q.toRat, Q.ofNat]

theorem Q.toRat_ofInt (n : Int) : Q.toRat (Q.ofInt n) = (n : ℚ) := by
  simp [Q.toRat, Q.ofInt]

theorem Q.toRat_add (a b : Q) : Q.toRat (a.add b) = a.toRat + b.toRat := by
  unfold Q.toRat Q.add
  have ha := a.den_ne
  have hb := b.den_ne
  push_cast
  field_simp

theorem Q.toRat_neg (a : Q) : Q.toRat a.neg = -a.toRat := by
  unfold Q.toRat Q.neg
  push_cast
  ring

theorem Q.toRat_sub (a b : Q) : Q.toRat (a.sub b) = a.toRat - b.toRat := by
  unfold Q.sub
  rw [Q.toRat_add, Q.toRat_neg]
  ring

theorem Q.toRat_mul (a b : Q) : Q.toRat (a.mul b) = a.toRat * b.toRat := by
  unfold Q.toRat Q.mul
  have ha := a.den_ne
  have hb := b.den_ne
  push_cast
  field_simp

theorem Q.toRat_inv (a : Q) : Q.toRat a.inv = (a.toRat)⁻¹ := by
  unfold Q.toRat Q.inv
  have ha := a.den_ne
  by_cases h : 0 < a.num
  · simp only [h, dite_true]
    have hn : ((a.num : ℚ)) ≠ 0 := by exact_mod_cast h.ne'
    have : ((a.num.toNat : ℚ)) = (a.num : ℚ) := by exact_mod_cast Int.toNat_of_nonneg h.le
    rw [this, inv_div]
    norm_cast
  · by_cases h2 : a.num < 0
    · simp only [h, h2, dite_true, dite_false]
      have : ((((-a.num).toNat : Int)) : ℚ) = ((-a.num : Int) : ℚ) := by
        exact_mod_cast Int.toNat_of_nonneg (by omega)
      push_cast at this ⊢
      rw [this, inv_div, neg_div_neg_eq]
      norm_cast
    · have h3 : a.num = 0 := by omega
      simp [h, h2, h3, Q.zero]

theorem Q.toRat_div (a b : Q) : Q.toRat (a.div b) = a.toRat / b.toRat := by
  unfold Q.div
  rw [Q.toRat_mul, Q.toRat_inv, div_eq_mul_inv]

theorem Q.lt_iff (a b : Q) : a.lt b = true ↔ a.toRat < b.toRat := by
  unfold Q.lt Q.toRat
  have ha : (0 : ℚ) < (a.den : ℚ) := by exact_mod_cast a.den_pos
  have hb : (0 : ℚ) < (b.den : ℚ) := by exact_mod_cast b.den_pos
  rw [div_lt_div_iff₀ ha hb]
  constructor
  · intro h
    have h2 : a.num * Int.ofNat b.den < b.num * Int.ofNat a.den := by
      simpa using h
    exact_mod_cast h2
  · intro h
    simp only [decide_eq_true_eq]
    exact_mod_cast h

theorem Q.le_iff (a b : Q) : a.le b = true ↔ a.toRat ≤ b.toRat := by
  unfold Q.le Q.toRat
  have ha : (0 : ℚ) < (a.den : ℚ) := by exact_mod_cast a.den_pos
  have hb : (0 : ℚ) < (b.den : ℚ) := by exact_mod_cast b.den_pos
  rw [div_le_div_iff₀ ha hb]
  constructor
  · intro h
    have h2 : a.num * Int.ofNat b.den ≤ b.num * Int.ofNat a.den := by
      simpa using h
    exact_mod_cast h2
  · intro h
    simp only [decide_eq_true_eq]
    exact_mod_cast h

theorem Q.beq_iff (a b : Q) : a.beq b = true ↔ a.toRat = b.toRat := by
  unfold Q.beq Q.toRat
  rw [div_eq_div_iff a.den_ne b.den_ne]
  constructor
  · intro h
    have h2 : a.num * Int.ofNat b.den = b.num * Int.ofNat a.den := by
      simpa using h
    exact_mod_cast h2
  · intro h
    simp only [decide_eq_true_eq]
    exact_mod_cast h

theorem Q.toRat_min (a b : Q) : Q.toRat (Q.min a b) = Min.min a.toRat b.toRat := by
  unfold Q.min
  by_cases h : Q.le a b = true
  · rw [if_pos h]
    exact (min_eq_left ((Q.le_iff a b).mp h)).symm
  · rw [if_neg h]
    have h2 : ¬ a.toRat ≤ b.toRat := fun hc => h ((Q.le_iff a b).mpr hc)
    exact (min_eq_right (le_of_not_le h2)).symm

theorem Q.toRat_sum (l : List Q) : Q.toRat (Q.sum l) = (l.map Q.toRat).sum := by
  unfold Q.sum
  suffices h : ∀ (init : Q), Q.toRat (l.foldl Q.add init) = Q.toRat init + (l.map Q.toRat).sum by
    rw [h Q.zero, Q.toRat_zero, zero_add]
  induction l with
  | nil => intro init; simp
  | cons x xs ih =>
    intro init
    simp only [List.foldl_cons, List.map_cons, List.sum_cons]
    rw [ih (init.add x), Q.toRat_add]
    ring

/-! ## Basic lemmas about rows -/
theorem Row.get_set_self (r : Row) (k : String) (v : Value) : (r.set k v).get k = some v := by
  induction r with
  | nil => simp [Row.set, Row.get]
  | cons p r ih =>
    by_cases hp : p.1 = k
    · simp [Row.set, Row.get, hp]
    · simp [Row.set, Row.get, hp, ih]

theorem Row.get_set_ne (r : Row) (k c : String) (v : Value) (h : k ≠ c) :
    (r.set c v).get k = r.get k := by
  have hck : ¬ ((c : String) == k) = true := by
    simp only [beq_iff_eq]
    exact fun hh => h hh.symm
  induction r with
  | nil => simp [Row.set, Row.get, hck]
  | cons p r ih =>
    by_cases hp : p.1 = c
    · simp [Row.set, Row.get, hp, hck]
    · simp [Row.set, Row.get, hp, ih]

theorem Row.get_del_self (r : Row) (k : String) : (r.del k).get k = none := by
  induction r with
  | nil => simp [Row.del, Row.get]
  | cons p r ih =>
    by_cases hp : p.1 = k
    · simp [Row.del, hp, ih]
    · simp [Row.del, Row.get, hp, ih]

theorem Row.get_del_ne (r : Row) (k c : String) (h : k ≠ c) :
    (r.del c).get k = r.get k := by
  induction r with
  | nil => simp [Row.del]
  | cons p r ih =>
    by_cases hp : p.1 = c
    · have h1 : ¬ (c = k) := fun hh => h hh.symm
      simp [Row.del, Row.get, hp, h1, ih]
    · simp [Row.del, Row.get, hp, ih]

/-- C1, counterexample.  On the scenario-C table the engine computes QC RSDs
5, 6 and 40 and retains row 2, exactly as the claim says, but the final
status recorded for row 3 is the Removed status, not ExcludedUnstableQC: the
per-stage exclusion statuses are dropped with the excluded candidates
(src/App.tsx 596) and the final marking loop (618-624) writes only Retained
or Removed. -/
theorem C1_counterexample :
    ((derep scenC).map (fun o => o.rows.map (fun r => r.get "_derep_status"))).toOption =
      some [some (Value.str Removed), some (Value.str Retained), some (Value.str Removed)] ∧
    ¬ Removed = ExcludedUnstableQC := by
  decide

/-- C1 (amended): on the scenario-C table the QC filter computes RSDs 5, 6
and 40, excludes row 3 from candidacy (40 > 30), takes minRsd = 5 among the
two surviving candidates, admits both into the rsd < 7 window, selects row 2
(average intensity 80 against 50) as winner, and the final statuses are
row 1 Removed, row 2 Retained, row 3 Removed. -/

theorem C1_theorem :
    (match qcStage (qcColsOf scHeaders) scRow1 with
      | QcOutcome.pass r => r.beq (Q.ofNat 5)
      | _ => false) = true ∧
    (match qcStage (qcColsOf scHeaders) scRow2 with
      | QcOutcome.pass r => r.beq (Q.ofNat 6)
      | _ => false) = true ∧
    (match qcStage (qcColsOf scHeaders) scRow3 with
      | QcOutcome.highRsd r => r.beq (Q.ofNat 40)
      | _ => false) = true ∧
    scenCCandidates.length = 2 ∧
    (qListMin ((scenCCandidates.map (setAvgIntensity (bioColsOf scHeaders))).map rsdOf)).beq
      (Q.ofNat 5) = true ∧
    ((scenCCandidates.map (setAvgIntensity (bioColsOf scHeaders))).filter
      (fun r => (rsdOf r).lt ((qListMin ((scenCCandidates.map
        (setAvgIntensity (bioColsOf scHeaders))).map rsdOf)).add (Q.ofNat 2)))).length = 2 ∧
    (avgOf (setAvgIntensity (bioColsOf scHeaders) scRow1)).beq (Q.ofNat 50) = true ∧
    (avgOf (setAvgIntensity (bioColsOf scHeaders) scRow2)).beq (Q.ofNat 80) = true ∧
    ((selectWinner (bioColsOf scHeaders) scenCCandidates).map
      (fun w => w.get "ID")) = some (some (Value.str "2")) ∧
    ((derep scenC).map (fun o => o.rows.map (fun r => r.get "_derep_status"))).toOption =
      some [some (Value.str Removed), some (Value.str Retained), some (Value.str Removed)] := by
  decide

/-! ## C2: headers, ephemeral metrics and export stripping -/

theorem mem_sortByOriginal {orig l : List Row} {r : Row} :
    r ∈ sortByOriginal orig l ↔ r ∈ l := by
  unfold sortByOriginal
  exact (List.perm_insertionSort _ _).mem_iff

/-- Shape of a successful engine run, read off the definition of derep. -/

theorem derep_ok_eq {t out : Table} (h : derep t = Except.ok out) :
    out = { headers := t.headers,
            rows := sortByOriginal t.rows
              ((((splitGroups t.rows).1.map (fun g =>
                  processGroup (bioColsOf t.headers) (qcColsOf t.headers) g.2)).flatten ++
                (splitGroups t.rows).2.map (fun r =>
                  Row.set r "_derep_status" (Value.str Retained))).map
                (fun r => (r.del "_qc_rsd").del "_avg_intensity")) } := by
  unfold derep at h
  by_cases h1 : (bioColsOf t.headers).isEmpty = true
  · rw [if_pos h1] at h
    exact absurd h (by simp)
  · rw [if_neg h1] at h
    by_cases h2 : (qcColsOf t.headers).isEmpty = true
    · rw [if_pos h2] at h
      exact absurd h (by simp)
    · rw [if_neg h2] at h
      by_cases h3 : (!(t.headers.contains "ID")) = true
      · rw [if_pos h3] at h
        exact absurd h (by simp)
      · rw [if_neg h3] at h
        exact (Except.ok.inj h).symm

/-- The download operation always removes the status key from every row it
keeps. -/

theorem download_strips (t : Table) :
    ∀ r ∈ (downloadDereplicationResult t).rows, r.get "_derep_status" = none := by
  intro r hr
  unfold downloadDereplicationResult at hr
  simp only [List.mem_map] at hr
  obtain ⟨x, _, hx⟩ := hr
  rw [← hx]
  exact Row.get_del_self x "_derep_status"

/-- C2 (amended).  For every input table on which the engine succeeds, the
output header list is identical to the input header list (the status is
stored per row under a key that never enters the header list, so the
header-projecting export drops it); no output row carries the ephemeral
derived metrics; and the download operation removes the status key from
every exported row. -/

theorem C2_theorem (t out : Table) (h : derep t = Except.ok out) :
    out.headers = t.headers ∧
    (∀ r ∈ out.rows, r.get "_qc_rsd" = none ∧ r.get "_avg_intensity" = none) ∧
    (∀ r ∈ (downloadDereplicationResult out).rows, r.get "_derep_status" = none) := by
  have he := derep_ok_eq h
  subst he
  refine ⟨rfl, ?_, download_strips _⟩
  intro r hr
  rw [mem_sortByOriginal] at hr
  simp only [List.mem_map] at hr
  obtain ⟨x, _, hx⟩ := hr
  subst hx
  constructor
  · rw [Row.get_del_ne _ _ _ (by decide)]
    exact Row.get_del_self x "_qc_rsd"
  · exact Row.get_del_self _ "_avg_intensity"

/-- C2, counterexample: on the scenario-C table the engine returns the input
header list unchanged; in particular the output header list is not the input
list extended by a status column, as the claim states. -/

theorem C2_counterexample :
    ((derep scenC).map Table.headers).toOption = some scenC.headers ∧
    ¬ ((derep scenC).map Table.headers).toOption =
      some (scenC.headers ++ ["_derep_status"]) := by
  decide

/-- C2, witness: the amended statement instantiated on the scenario-C run. -/

theorem C2_witness :
    scenCOut.headers = scenC.headers ∧
    (∀ r ∈ scenCOut.rows, r.get "_qc_rsd" = none ∧ r.get "_avg_intensity" = none) ∧
    (∀ r ∈ (downloadDereplicationResult scenCOut).rows, r.get "_derep_status" = none) :=
  C2_theorem scenC scenCOut (by rfl)

/-! ## C9: contaminant filter -/

theorem keepRow_eq_not_removes (S : List String) (r : Row) :
    keepRow S r = !(contaminantRemoves S r) := by
  unfold keepRow contaminantRemoves
  rcases r.get "Final_Annotation" with _ | v
  · rfl
  · cases v with
    | str s =>
      by_cases h : jsTrim (jsToString (Value.str s)) = ""
      · simp [h]
      · simp [h]
    | num q =>
      by_cases h : jsTrim (jsToString (Value.num q)) = ""
      · simp [h]
      · simp [h]
    | null => rfl

/-- C9.  The contaminant filter removes exactly the rows whose trimmed
resolved-annotation value is a member of the exclusion set, always retains
rows with missing, null or blank annotation, preserves the header list, and
is idempotent. -/

theorem C9_theorem (t : Table) (S : List String) :
    (handleApplyFilter t S).headers = t.headers ∧
    (handleApplyFilter t S).rows = t.rows.filter (fun r => !(contaminantRemoves S r)) ∧
    (∀ r, r.get "Final_Annotation" = none ∨ r.get "Final_Annotation" = some Value.null ∨
      jsTrim (jsToString ((r.get "Final_Annotation").getD Value.null)) = "" →
      keepRow S r = true) ∧
    handleApplyFilter (handleApplyFilter t S) S = handleApplyFilter t S := by
  refine ⟨rfl, ?_, ?_, ?_⟩
  · unfold handleApplyFilter
    simp only
    exact List.filter_congr (fun r _ => keepRow_eq_not_removes S r)
  · intro r hr
    unfold keepRow
    rcases hg : r.get "Final_Annotation" with _ | v
    · rfl
    · rcases hr with h | h | h
      · rw [hg] at h
        exact absurd h (by simp)
      · rw [hg] at h
        cases Option.some.inj h
        rfl
      · rw [hg] at h
        simp only [Option.getD_some] at h
        cases v with
        | str s => simp [h]
        | num q => simp [h]
        | null => rfl
  · unfold handleApplyFilter
    simp only [List.filter_filter]
    congr 1
    exact List.filter_congr (fun r _ => by rw [Bool.and_self])

/-! ## C10: the mean-zero branch of the QC filter is unreachable -/

theorem qcValues_pos (qcCols : List String) (row : Row) :
    ∀ v ∈ qcValuesOf qcCols row, 0 < v.toRat := by
  intro v hv
  unfold qcValuesOf at hv
  have := List.of_mem_filter hv
  rw [Q.lt_iff] at this
  simpa [Q.toRat_zero] using this

/-- C10.  The branch marking a row ExcludedUnstableQC because the QC mean is
zero can never be taken: the collected QC values are strictly positive and at
least two are required, so the computed mean is strictly positive. -/

theorem C10_theorem (qcCols : List String) (row : Row) :
    ¬ qcStage qcCols row = QcOutcome.meanZero := by
  intro h
  unfold qcStage at h
  by_cases hlen : (qcValuesOf qcCols row).length < 2
  · simp [hlen] at h
  · simp only [hlen, if_false] at h
    set vals := qcValuesOf qcCols row with hvals
    by_cases hb : ((Q.sum vals).div (Q.ofNat vals.length)).beq Q.zero = true
    · have hpos : 0 < ((vals.map Q.toRat).sum : ℚ) := by
        apply List.sum_pos
        · intro x hx
          obtain ⟨v, hv, rfl⟩ := List.mem_map.mp hx
          exact qcValues_pos qcCols row v hv
        · intro hc
          have : vals.length = 0 := by
            have := congrArg List.length hc
            simpa using this
          omega
      have hlenpos : (0 : ℚ) < (vals.length : ℚ) := by
        have : 0 < vals.length := by omega
        exact_mod_cast this
      have hmean : ((Q.sum vals).div (Q.ofNat vals.length)).toRat = 0 := by
        rw [Q.beq_iff] at hb
        simpa [Q.toRat_zero] using hb
      rw [Q.toRat_div, Q.toRat_sum, Q.toRat_ofNat] at hmean
      have : (0 : ℚ) < (vals.map Q.toRat).sum / (vals.length : ℚ) :=
        div_pos hpos hlenpos
      rw [hmean] at this
      exact lt_irrefl 0 this
    · simp only [hb, if_false] at h
      by_cases hr : ((Q.ofNat 30).lt (((Q.ratSqrt ((Q.sum (vals.map (fun x =>
          (x.sub ((Q.sum vals).div (Q.ofNat vals.length))).mul
            (x.sub ((Q.sum vals).div (Q.ofNat vals.length)))))).div
          (Q.ofNat (vals.length - 1)))).div
          ((Q.sum vals).div (Q.ofNat vals.length))).mul (Q.ofNat 100))) = true
      · simp [hr] at h
      · simp [hr] at h

/-! ## C4: the annotation arbiter -/

/-- The strongA computation of the source (one three-way match over the
parse results) agrees with the four independent claim-side conditions. -/
theorem codeStrongA_eq (row : Row) :
    (match jsParseFloat (jsToStringOpt (row.get "MQScore")),
        jsParseInt (jsToStringOpt (row.get "SharedPeaks")),
        jsParseFloat (jsToStringOpt (row.get "MZErrorPPM")) with
      | some mq, some sp, some mz =>
        qPoint9.lt mq && (jsToString (jsOrEmpty (row.get "LibraryQualityString")) == "Gold") &&
          (Q.ofNat 10).lt sp && mz.abs.lt (Q.ofNat 5)
      | _, _, _ => false) = strongA row := by
  unfold strongA
  rcases jsParseFloat (jsToStringOpt (row.get "MQScore")) with _ | mq
  · rfl
  · rcases jsParseInt (jsToStringOpt (row.get "SharedPeaks")) with _ | sp
    · simp
    · rcases jsParseFloat (jsToStringOpt (row.get "MZErrorPPM")) with _ | mz
      · simp
      · rfl

/-- C4.  The arbiter follows the claimed decision table: empty when both
names are empty, the only present name when one is present, the A casing on
case-insensitive equality, otherwise B on strongA and strongB, A on strongA
alone, B on strongB alone, and A by default, with strongA and strongB as
defined by the claim. -/

theorem C4_theorem (row : Row) : determineFinalAnnotation row = arbiterSpec row := by
  have hfb := codeStrongA_eq row
  have hsb : (match jsParseFloat (jsToStringOpt (row.get "ConfidenceScoreExact")) with
      | some c => qPoint8.lt c
      | none => false) = strongB row := rfl
  have ea : jsTrim (jsToString (jsOrEmpty (row.get "Compound_Name"))) = nameA row := rfl
  have eb : jsTrim (jsToString (jsOrEmpty (row.get "name"))) = nameB row := rfl
  unfold determineFinalAnnotation arbiterSpec
  simp only [hfb, hsb, ea, eb]
  by_cases ha : nameA row = ""
  · by_cases hb : nameB row = ""
    · simp [ha, hb]
    · simp [ha, hb]
  · by_cases hb : nameB row = ""
    · simp [ha, hb]
    · by_cases hl : jsToLower (nameA row) = jsToLower (nameB row)
      · simp [ha, hb, hl]
      · rcases hsa2 : strongA row with _ | _ <;> rcases hsb2 : strongB row with _ | _ <;>
          simp [ha, hb, hl, hsa2, hsb2]

/-! ## C6: the QC-stability filter -/

theorem codeMean_toRat (vals : List Q) :
    ((Q.sum vals).div (Q.ofNat vals.length)).toRat = qcMeanR vals := by
  rw [Q.toRat_div, Q.toRat_sum, Q.toRat_ofNat]
  rfl

theorem qcStage_meanZero_eq (qcCols : List String) (row : Row)
    (h2 : 2 ≤ (qcValuesOf qcCols row).length)
    (hz : (meanTerm qcCols row).beq Q.zero = true) :
    qcStage qcCols row = QcOutcome.meanZero := by
  have hz2 : ((Q.sum (qcValuesOf qcCols row)).div
      (Q.ofNat (qcValuesOf qcCols row).length)).beq Q.zero = true := hz
  unfold qcStage
  rw [if_neg (by omega)]
  simp only [hz2, if_true]

theorem qcStage_main_eq (qcCols : List String) (row : Row)
    (h2 : 2 ≤ (qcValuesOf qcCols row).length)
    (hz : (meanTerm qcCols row).beq Q.zero = false) :
    qcStage qcCols row =
      (if (Q.ofNat 30).lt (rsdTerm qcCols row) = true then
        QcOutcome.highRsd (rsdTerm qcCols row)
      else QcOutcome.pass (rsdTerm qcCols row)) := by
  have hz2 : ((Q.sum (qcValuesOf qcCols row)).div
      (Q.ofNat (qcValuesOf qcCols row).length)).beq Q.zero = false := hz
  unfold qcStage
  rw [if_neg (by omega)]
  simp only [hz2, Bool.false_eq_true, if_false]
  rfl

/-- C6.  The QC-stability filter collects exactly the strictly positive
numeric QC values; with fewer than two it passes the row with RSD 0; with at
least two it excludes on zero mean, and otherwise computes the Bessel-
corrected sample standard deviation and rsd = 100 * stddev / mean, excluding
the row exactly when rsd > 30; the row is marked ExcludedUnstableQC exactly
when one of the two excluding branches is taken. -/

theorem C6_theorem (qcCols : List String) (row : Row) :
    qcValuesOf qcCols row =
      ((qcCols.map (fun col => jsNumber (row.get col))).filterMap id).filter
        (fun v => decide (0 < v.toRat)) ∧
    ((qcValuesOf qcCols row).length < 2 →
      qcStage qcCols row = QcOutcome.fewValues ∧
      ∀ bioCols, ¬ (Q.ofNat 50).lt (missingRate bioCols row) = true →
        stage1 bioCols qcCols row = Row.set row "_qc_rsd" (Value.num Q.zero)) ∧
    (2 ≤ (qcValuesOf qcCols row).length →
      (qcMeanR (qcValuesOf qcCols row) = 0 → qcStage qcCols row = QcOutcome.meanZero) ∧
      (qcMeanR (qcValuesOf qcCols row) ≠ 0 → ∃ rsdQ varQ : Q,
        varQ.toRat = qcVarR (qcValuesOf qcCols row) ∧
        rsdQ.toRat = 100 * (Q.ratSqrt varQ).toRat / qcMeanR (qcValuesOf qcCols row) ∧
        ((30 < rsdQ.toRat ∧ qcStage qcCols row = QcOutcome.highRsd rsdQ) ∨
         (rsdQ.toRat ≤ 30 ∧ qcStage qcCols row = QcOutcome.pass rsdQ)))) ∧
    (row.get "_derep_status" = none →
      ∀ bioCols, ¬ (Q.ofNat 50).lt (missingRate bioCols row) = true →
      ((stage1 bioCols qcCols row).get "_derep_status" = some (Value.str ExcludedUnstableQC) ↔
        qcStage qcCols row = QcOutcome.meanZero ∨
          ∃ r, qcStage qcCols row = QcOutcome.highRsd r)) := by
  refine ⟨?_, ?_, ?_, ?_⟩
  · unfold qcValuesOf
    refine List.filter_congr ?_
    intro v _
    by_cases h : Q.zero.lt v = true
    · have h2 := (Q.lt_iff _ _).mp h
      rw [Q.toRat_zero] at h2
      simp [h, h2]
    · have h2 : ¬ 0 < v.toRat := fun hc => h ((Q.lt_iff _ _).mpr (by rwa [Q.toRat_zero]))
      simp only [Bool.not_eq_true] at h
      simp [h, h2]
  · intro hlen
    have hq : qcStage qcCols row = QcOutcome.fewValues := by
      unfold qcStage
      rw [if_pos hlen]
    refine ⟨hq, ?_⟩
    intro bioCols hmiss
    unfold stage1
    rw [if_neg hmiss, hq]
  · intro h2len
    have hmean : (meanTerm qcCols row).toRat = qcMeanR (qcValuesOf qcCols row) :=
      codeMean_toRat (qcValuesOf qcCols row)
    constructor
    · intro h0
      have hbeq : (meanTerm qcCols row).beq Q.zero = true := by
        rw [Q.beq_iff, hmean, h0, Q.toRat_zero]
      exact qcStage_meanZero_eq qcCols row h2len hbeq
    · intro hne
      have hbeq : (meanTerm qcCols row).beq Q.zero = false := by
        rw [Bool.eq_false_iff]
        intro hc
        rw [Q.beq_iff, hmean, Q.toRat_zero] at hc
        exact hne hc
      have hvar : (varTerm qcCols row).toRat = qcVarR (qcValuesOf qcCols row) := by
        unfold varTerm
        rw [Q.toRat_div, Q.toRat_sum, Q.toRat_ofNat]
        unfold qcVarR
        congr 1
        · refine congrArg List.sum ?_
          rw [List.map_map, List.map_map]
          refine List.map_congr_left ?_
          intro x _
          simp only [Function.comp_apply, Q.toRat_mul, Q.toRat_sub, hmean]
          ring
        · have h1 : 1 ≤ (qcValuesOf qcCols row).length := by omega
          push_cast [Nat.cast_sub h1]
          ring
      have hrsd : (rsdTerm qcCols row).toRat =
          100 * (Q.ratSqrt (varTerm qcCols row)).toRat / qcMeanR (qcValuesOf qcCols row) := by
        unfold rsdTerm
        rw [Q.toRat_mul, Q.toRat_div, Q.toRat_ofNat, hmean]
        ring
      refine ⟨rsdTerm qcCols row, varTerm qcCols row, hvar, hrsd, ?_⟩
      have hmain := qcStage_main_eq qcCols row h2len hbeq
      by_cases hcmp : (Q.ofNat 30).lt (rsdTerm qcCols row) = true
      · left
        refine ⟨?_, ?_⟩
        · have := (Q.lt_iff _ _).mp hcmp
          rwa [Q.toRat_ofNat] at this
        · rw [hmain, if_pos hcmp]
      · right
        refine ⟨?_, ?_⟩
        · have h3 : ¬ 30 < (rsdTerm qcCols row).toRat := fun hc =>
            hcmp ((Q.lt_iff _ _).mpr (by rwa [Q.toRat_ofNat]))
          exact le_of_not_lt h3
        · rw [hmain, if_neg hcmp]
  · intro hfresh bioCols hmiss
    unfold stage1
    rw [if_neg hmiss]
    cases hq : qcStage qcCols row with
    | fewValues =>
      simp [Row.get_set_ne row "_derep_status" "_qc_rsd" (Value.num Q.zero) (by decide), hfresh]
    | meanZero =>
      simp [Row.get_set_self]
    | highRsd r =>
      simp [Row.get_set_self]
    | pass r =>
      simp [Row.get_set_ne row "_derep_status" "_qc_rsd" (Value.num r) (by decide), hfresh]

/-- C6, witness: the main branch of the QC filter instantiated on row 3 of
scenario C (QC values 60, 100, 140: mean 100, sample deviation 40, rsd 40,
hence exclusion). -/

theorem C6_witness :
    2 ≤ (qcValuesOf (qcColsOf scHeaders) scRow3).length ∧
    ¬ qcMeanR (qcValuesOf (qcColsOf scHeaders) scRow3) = 0 ∧
    (∃ rsdQ varQ : Q,
      varQ.toRat = qcVarR (qcValuesOf (qcColsOf scHeaders) scRow3) ∧
      rsdQ.toRat = 100 * (Q.ratSqrt varQ).toRat /
        qcMeanR (qcValuesOf (qcColsOf scHeaders) scRow3) ∧
      ((30 < rsdQ.toRat ∧ qcStage (qcColsOf scHeaders) scRow3 = QcOutcome.highRsd rsdQ) ∨
       (rsdQ.toRat ≤ 30 ∧ qcStage (qcColsOf scHeaders) scRow3 = QcOutcome.pass rsdQ))) := by
  have hv : qcValuesOf (qcColsOf scHeaders) scRow3 =
      [Q.ofNat 60, Q.ofNat 100, Q.ofNat 140] := by decide
  have hlen : 2 ≤ (qcValuesOf (qcColsOf scHeaders) scRow3).length := by
    rw [hv]
    decide
  have hne : ¬ qcMeanR (qcValuesOf (qcColsOf scHeaders) scRow3) = 0 := by
    rw [hv]
    unfold qcMeanR
    simp [Q.toRat_ofNat]
    norm_num
  exact ⟨hlen, hne, ((C6_theorem (qcColsOf scHeaders) scRow3).2.2.1 hlen).2 hne⟩

/-! ## C7: winner selection -/

theorem foldMin_le (xs : List Q) : ∀ (a : Q),
    (xs.foldl Q.min a).toRat ≤ a.toRat ∧ ∀ x ∈ xs, (xs.foldl Q.min a).toRat ≤ x.toRat := by
  induction xs with
  | nil =>
    intro a
    exact ⟨le_refl _, by simp⟩
  | cons y t ih =>
    intro a
    simp only [List.foldl_cons]
    obtain ⟨h1, h2⟩ := ih (Q.min a y)
    have hmin_le_a : (Q.min a y).toRat ≤ a.toRat := by
      rw [Q.toRat_min]
      exact min_le_left _ _
    have hmin_le_y : (Q.min a y).toRat ≤ y.toRat := by
      rw [Q.toRat_min]
      exact min_le_right _ _
    refine ⟨le_trans h1 hmin_le_a, ?_⟩
    intro x hx
    rcases List.mem_cons.mp hx with rfl | hx2
    · exact le_trans h1 hmin_le_y
    · exact h2 x hx2

theorem foldMin_mem (xs : List Q) : ∀ (a : Q), xs.foldl Q.min a = a ∨ xs.foldl Q.min a ∈ xs := by
  induction xs with
  | nil =>
    intro a
    exact Or.inl rfl
  | cons y t ih =>
    intro a
    simp only [List.foldl_cons]
    rcases ih (Q.min a y) with h2 | h2
    · rw [h2]
      unfold Q.min
      by_cases h : (Q.le a y) = true
      · rw [if_pos h]
        exact Or.inl rfl
      · rw [if_neg h]
        exact Or.inr (List.mem_cons_self _ _)
    · exact Or.inr (List.mem_cons_of_mem _ h2)

theorem qListMin_le (l : List Q) : ∀ x ∈ l, (qListMin l).toRat ≤ x.toRat := by
  cases l with
  | nil => simp
  | cons a xs =>
    intro x hx
    unfold qListMin
    rcases List.mem_cons.mp hx with rfl | hx2
    · exact (foldMin_le xs x).1
    · exact (foldMin_le xs a).2 x hx2

theorem qListMin_mem (l : List Q) (h : l ≠ []) : qListMin l ∈ l := by
  cases l with
  | nil => exact absurd rfl h
  | cons a xs =>
    show List.foldl Q.min a xs ∈ a :: xs
    rcases foldMin_mem xs a with h2 | h2
    · rw [h2]
      exact List.mem_cons_self _ _
    · exact List.mem_cons_of_mem _ h2

/-- The reduce of stage 2 returns the first element attaining the maximal
projection: helper over an explicit accumulator. -/

theorem foldPickAux {α : Type} (g : α → Q) (xs : List α) : ∀ (a : α),
    ∃ i, ∃ hi : i < (a :: xs).length,
      xs.foldl (fun mx row => if (g mx).lt (g row) then row else mx) a = (a :: xs).get ⟨i, hi⟩ ∧
      (∀ j, ∀ hj : j < (a :: xs).length,
        (g ((a :: xs).get ⟨j, hj⟩)).toRat ≤ (g ((a :: xs).get ⟨i, hi⟩)).toRat) ∧
      (∀ j, ∀ hj : j < (a :: xs).length, j < i →
        (g ((a :: xs).get ⟨j, hj⟩)).toRat < (g ((a :: xs).get ⟨i, hi⟩)).toRat) := by
  induction xs with
  | nil =>
    intro a
    refine ⟨0, by simp, by simp, ?_, ?_⟩
    · intro j hj
      have : j = 0 := by simpa using hj
      subst this
      exact le_refl _
    · intro j hj hlt
      omega
  | cons y t ih =>
    intro a
    simp only [List.foldl_cons]
    by_cases hy : (g a).lt (g y) = true
    · rw [if_pos hy]
      have hay : (g a).toRat < (g y).toRat := (Q.lt_iff _ _).mp hy
      obtain ⟨i, hi, he, hmax, hfirst⟩ := ih y
      refine ⟨i + 1, by simpa using hi, he, ?_, ?_⟩
      · intro j hj
        rcases j with _ | j
        · exact le_trans (le_of_lt hay) (hmax 0 (by simp))
        · exact hmax j (by simpa using hj)
      · intro j hj hlt
        rcases j with _ | j
        · exact lt_of_lt_of_le hay (hmax 0 (by simp))
        · exact hfirst j (by simpa using hj) (by omega)
    · rw [if_neg hy]
      have hyle : (g y).toRat ≤ (g a).toRat := by
        have h2 : ¬ (g a).toRat < (g y).toRat := fun hc => hy ((Q.lt_iff _ _).mpr hc)
        exact le_of_not_lt h2
      obtain ⟨i, hi, he, hmax, hfirst⟩ := ih a
      rcases i with _ | k
      · refine ⟨0, by simp, he, ?_, ?_⟩
        · intro j hj
          rcases j with _ | j
          · exact hmax 0 (by simp)
          · rcases j with _ | j
            · exact le_trans hyle (hmax 0 (by simp))
            · exact hmax (j + 1) (by simpa using hj)
        · intro j hj hlt
          omega
      · refine ⟨k + 2, by simpa using hi, he, ?_, ?_⟩
        · intro j hj
          rcases j with _ | j
          · exact hmax 0 (by simp)
          · rcases j with _ | j
            · exact le_trans hyle (hmax 0 (by simp))
            · exact hmax (j + 1) (by simpa using hj)
        · intro j hj hlt
          rcases j with _ | j
          · exact hfirst 0 (by simp) (by omega)
          · rcases j with _ | j
            · exact lt_of_le_of_lt hyle (hfirst 0 (by simp) (by omega))
            · exact hfirst (j + 1) (by simpa using hj) (by omega)

/-- C7.  With more than one surviving candidate, minRsd is the least RSD
among the annotated candidates (rows without a stored RSD contribute 0
through rsdOf), the window keeps exactly the candidates with rsd below
minRsd + 2 and is never empty, and the selected winner is the element of the
window at the least index attaining the maximal average intensity, so that
of two candidates with equal average intensity the earlier one wins. -/
theorem C7_theorem (bioCols : List String) (candidates : List Row)
    (hlen : 2 ≤ candidates.length) :
    (∀ c ∈ candsOf bioCols candidates,
      (minRsdOf bioCols candidates).toRat ≤ (rsdOf c).toRat) ∧
    (minRsdOf bioCols candidates ∈ (candsOf bioCols candidates).map rsdOf) ∧
    windowOf bioCols candidates ≠ [] ∧
    (∀ c ∈ windowOf bioCols candidates,
      (rsdOf c).toRat < (minRsdOf bioCols candidates).toRat + 2) ∧
    (∃ i, ∃ hi : i < (windowOf bioCols candidates).length,
      selectWinner bioCols candidates = some ((windowOf bioCols candidates).get ⟨i, hi⟩) ∧
      (∀ j, ∀ hj : j < (windowOf bioCols candidates).length,
        (avgOf ((windowOf bioCols candidates).get ⟨j, hj⟩)).toRat ≤
          (avgOf ((windowOf bioCols candidates).get ⟨i, hi⟩)).toRat) ∧
      (∀ j, ∀ hj : j < (windowOf bioCols candidates).length, j < i →
        (avgOf ((windowOf bioCols candidates).get ⟨j, hj⟩)).toRat <
          (avgOf ((windowOf bioCols candidates).get ⟨i, hi⟩)).toRat)) := by
  have hne : (candsOf bioCols candidates).map rsdOf ≠ [] := by
    intro hc
    have := congrArg List.length hc
    simp only [List.length_map, List.length_nil, candsOf] at this
    omega
  have hmin_le : ∀ c ∈ candsOf bioCols candidates,
      (minRsdOf bioCols candidates).toRat ≤ (rsdOf c).toRat := by
    intro c hc
    exact qListMin_le _ _ (List.mem_map_of_mem rsdOf hc)
  have hmin_mem := qListMin_mem _ hne
  have hwin_ne : windowOf bioCols candidates ≠ [] := by
    obtain ⟨c, hc, hcr⟩ := List.mem_map.mp hmin_mem
    have hpass : (rsdOf c).lt ((minRsdOf bioCols candidates).add (Q.ofNat 2)) = true := by
      rw [Q.lt_iff, Q.toRat_add, Q.toRat_ofNat, hcr]
      unfold minRsdOf
      push_cast
      linarith
    intro hc0
    have : c ∈ windowOf bioCols candidates := by
      unfold windowOf
      exact List.mem_filter.mpr ⟨hc, hpass⟩
    rw [hc0] at this
    exact absurd this (List.not_mem_nil c)
  refine ⟨hmin_le, hmin_mem, hwin_ne, ?_, ?_⟩
  · intro c hc
    have := List.of_mem_filter hc
    rw [Q.lt_iff, Q.toRat_add, Q.toRat_ofNat] at this
    exact this
  · rcases candidates with _ | ⟨c1, _ | ⟨c2, rest⟩⟩
    · simp at hlen
    · simp at hlen
    · have hw : selectWinner bioCols (c1 :: c2 :: rest) =
          (match windowOf bioCols (c1 :: c2 :: rest) with
           | [] => none
           | f :: fs => some ((f :: fs).foldl
               (fun mx row => if (avgOf mx).lt (avgOf row) then row else mx) f)) := rfl
      rcases hWmatch : windowOf bioCols (c1 :: c2 :: rest) with _ | ⟨f, fs⟩
      · exact absurd hWmatch hwin_ne
      · simp only [List.foldl_cons, ite_self] at hw
        obtain ⟨i, hi, he, hmax, hfirst⟩ := foldPickAux avgOf fs f
        refine ⟨i, hi, ?_, hmax, hfirst⟩
        rw [hw, hWmatch]
        exact congrArg some he

/-- C7, witness: winner selection instantiated on the two surviving
scenario-C candidates. -/

theorem C7_witness :
    (∀ c ∈ candsOf (bioColsOf scHeaders) scenCCandidates,
      (minRsdOf (bioColsOf scHeaders) scenCCandidates).toRat ≤ (rsdOf c).toRat) ∧
    (minRsdOf (bioColsOf scHeaders) scenCCandidates ∈
      (candsOf (bioColsOf scHeaders) scenCCandidates).map rsdOf) ∧
    windowOf (bioColsOf scHeaders) scenCCandidates ≠ [] ∧
    (∀ c ∈ windowOf (bioColsOf scHeaders) scenCCandidates,
      (rsdOf c).toRat < (minRsdOf (bioColsOf scHeaders) scenCCandidates).toRat + 2) ∧
    (∃ i, ∃ hi : i < (windowOf (bioColsOf scHeaders) scenCCandidates).length,
      selectWinner (bioColsOf scHeaders) scenCCandidates =
        some ((windowOf (bioColsOf scHeaders) scenCCandidates).get ⟨i, hi⟩) ∧
      (∀ j, ∀ hj : j < (windowOf (bioColsOf scHeaders) scenCCandidates).length,
        (avgOf ((windowOf (bioColsOf scHeaders) scenCCandidates).get ⟨j, hj⟩)).toRat ≤
          (avgOf ((windowOf (bioColsOf scHeaders) scenCCandidates).get ⟨i, hi⟩)).toRat) ∧
      (∀ j, ∀ hj : j < (windowOf (bioColsOf scHeaders) scenCCandidates).length, j < i →
        (avgOf ((windowOf (bioColsOf scHeaders) scenCCandidates).get ⟨j, hj⟩)).toRat <
          (avgOf ((windowOf (bioColsOf scHeaders) scenCCandidates).get ⟨i, hi⟩)).toRat)) :=
  C7_theorem (bioColsOf scHeaders) scenCCandidates (by decide)

/-! ## C5: exact-merge row semantics -/

theorem mapGet_mapSet {α : Type} (m : List (String × α)) (k0 k : String) (v : α) :
    mapGet (mapSet m k0 v) k = if k0 == k then some v else mapGet m k := by
  induction m with
  | nil =>
    by_cases h : k0 = k
    · simp [mapSet, mapGet, h]
    · simp [mapSet, mapGet, h]
  | cons p m ih =>
    by_cases hp : p.1 = k0
    · by_cases hk : k0 = k
      · simp [mapSet, mapGet, hp, hk]
      · have hpk : ¬ p.1 = k := by rw [hp]; exact hk
        simp [mapSet, mapGet, hp, hk, hpk]
    · by_cases hpk : p.1 = k
      · have hk : ¬ k0 = k := by
          intro hc
          exact hp (by rw [hpk, hc])
        have hk2 : ¬ k = k0 := fun hc => hk hc.symm
        simp [mapSet, mapGet, hp, hpk, hk, hk2]
      · simp [mapSet, mapGet, hp, hpk, ih]

theorem lastMatch_cons (r : Row) (rest : List Row) (k : String) :
    lastMatch (r :: rest) k =
      (match lastMatch rest k with
       | some m => some m
       | none => if trimmedKey (r.get "ID") == some k then some r else none) := rfl

theorem mapGet_foldl_keyed (rows : List Row) : ∀ (m : List (String × Row)) (k : String),
    mapGet ((keyedEntries rows).foldl (fun acc e => mapSet acc e.1 e.2) m) k =
      (match lastMatch rows k with
       | some r => some r
       | none => mapGet m k) := by
  induction rows with
  | nil =>
    intro m k
    rfl
  | cons r rest ih =>
    intro m k
    rw [lastMatch_cons]
    rcases hk : trimmedKey (r.get "ID") with _ | k0
    · have hent : keyedEntries (r :: rest) = keyedEntries rest := by
        unfold keyedEntries
        simp [List.filterMap_cons, hk]
      rw [hent, ih m k]
      rcases hlm : lastMatch rest k with _ | x
      · simp
      · rfl
    · have hent : keyedEntries (r :: rest) = (k0, r) :: keyedEntries rest := by
        unfold keyedEntries
        simp [List.filterMap_cons, hk]
      rw [hent]
      simp only [List.foldl_cons]
      rw [ih (mapSet m k0 r) k]
      rcases hlm : lastMatch rest k with _ | x
      · rw [mapGet_mapSet]
        by_cases he : k0 = k
        · simp [he]
        · simp [he]
      · rfl

theorem mapGet_buildMap_keyed (rows : List Row) (k : String) :
    mapGet (buildMap (keyedEntries rows)) k = lastMatch rows k := by
  unfold buildMap
  rw [mapGet_foldl_keyed rows [] k]
  rcases lastMatch rows k with _ | x
  · rfl
  · rfl

theorem appendFrom_get_not_mem (cols : List String) (m : Row) (c : String)
    (hc : ¬ c ∈ cols) : ∀ (b : Row), (appendFrom cols m b).get c = b.get c := by
  induction cols with
  | nil =>
    intro b
    rfl
  | cons c0 cols ih =>
    intro b
    have hc0 : ¬ c = c0 := fun h => hc (h ▸ List.mem_cons_self c0 cols)
    have hcs : ¬ c ∈ cols := fun h => hc (List.mem_cons_of_mem c0 h)
    unfold appendFrom
    simp only [List.foldl_cons]
    have := ih hcs (b.set c0 ((m.get c0).getD Value.null))
    unfold appendFrom at this
    rw [this, Row.get_set_ne _ _ _ _ hc0]

theorem appendFrom_get_mem (cols : List String) (m : Row) (c : String)
    (hc : c ∈ cols) : ∀ (b : Row),
      (appendFrom cols m b).get c = some ((m.get c).getD Value.null) := by
  induction cols with
  | nil => exact absurd hc (List.not_mem_nil c)
  | cons c0 cols ih =>
    intro b
    unfold appendFrom
    simp only [List.foldl_cons]
    by_cases hcs : c ∈ cols
    · have := ih hcs (b.set c0 ((m.get c0).getD Value.null))
      unfold appendFrom at this
      rw [this]
    · have hc0 : c = c0 := by
        rcases List.mem_cons.mp hc with h | h
        · exact h
        · exact absurd h hcs
      subst hc0
      have := appendFrom_get_not_mem cols m c hcs (b.set c ((m.get c).getD Value.null))
      unfold appendFrom at this
      rw [this, Row.get_set_self]

/-- C5.  Every merged row is the base row unchanged when its key is null,
missing or blank or when no incoming row has the same trimmed key; when
matches exist the last incoming row with that key supplies the values, the
configured append columns are copied with absent values becoming null, and
every other column of the base row is untouched. -/
theorem C5_theorem (base incoming : Table) (appendColumns : List String) :
    (mergeExact base incoming appendColumns).1.rows =
      base.rows.map (mergeRowSpec incoming appendColumns) ∧
    (∀ m baseRow c, c ∈ appendColumns →
      (appendFrom appendColumns m baseRow).get c = some ((m.get c).getD Value.null)) ∧
    (∀ m baseRow c, ¬ c ∈ appendColumns →
      (appendFrom appendColumns m baseRow).get c = baseRow.get c) := by
  refine ⟨?_, ?_, ?_⟩
  · unfold mergeExact
    simp only
    refine List.map_congr_left ?_
    intro baseRow _
    unfold mergeRowSpec
    rcases trimmedKey (baseRow.get "ID") with _ | k
    · rfl
    · rw [show (incoming.rows.filterMap
        (fun r => (trimmedKey (r.get "ID")).map (fun k => (k, r)))) = keyedEntries incoming.rows
        from rfl]
      simp only [mapGet_buildMap_keyed]
  · intro m baseRow c hc
    exact appendFrom_get_mem appendColumns m c hc baseRow
  · intro m baseRow c hc
    exact appendFrom_get_not_mem appendColumns m c hc baseRow

/-! ## C3: unmatched-key diagnostics of the two merges -/

theorem dedupFirst_nodup (l : List String) : (dedupFirst l).Nodup := by
  induction l with
  | nil => exact List.nodup_nil
  | cons x xs ih =>
    unfold dedupFirst
    refine List.Nodup.cons ?_ (List.Nodup.filter _ ih)
    intro hc
    have := List.of_mem_filter hc
    simp at this

theorem dedupFirst_mem (l : List String) (k : String) : k ∈ dedupFirst l ↔ k ∈ l := by
  induction l with
  | nil => simp [dedupFirst]
  | cons x xs ih =>
    unfold dedupFirst
    constructor
    · intro h
      rcases List.mem_cons.mp h with rfl | h2
      · exact List.mem_cons_self _ _
      · exact List.mem_cons_of_mem _ (ih.mp (List.mem_of_mem_filter h2))
    · intro h
      rcases List.mem_cons.mp h with rfl | h2
      · exact List.mem_cons_self _ _
      · by_cases hx : k = x
        · exact hx ▸ List.mem_cons_self _ _
        · refine List.mem_cons_of_mem _ (List.mem_filter.mpr ⟨ih.mpr h2, ?_⟩)
          simp [hx]

theorem count_filterMap {α : Type} [DecidableEq α] (f : Row → Option α) (l : List Row) (v : α) :
    ((l.filterMap f).count v) = (l.filter (fun r => f r == some v)).length := by
  induction l with
  | nil => rfl
  | cons r t ih =>
    rw [List.filterMap_cons, List.filter_cons]
    rcases hf : f r with _ | w
    · simpa using ih
    · show List.count v (w :: List.filterMap f t) =
        (if (some w == some v) = true then r :: t.filter (fun (r2 : Row) => f r2 == some v)
         else t.filter (fun (r2 : Row) => f r2 == some v)).length
      by_cases hw : w = v
      · subst hw
        rw [if_pos (by simp), List.count_cons_self, List.length_cons, ih]
      · rw [if_neg (by simp [hw]), List.count_cons_of_ne (fun hc => hw hc.symm)]
        exact ih

/-- The incoming keys reported by the exact merge are exactly the trimmed-
key values of the incoming rows. -/

theorem uploadedKeys_mem (rows : List Row) (k : String) :
    k ∈ (rows.filterMap idExtract).map (fun v => jsTrim (jsToString v)) ↔
      ∃ r ∈ rows, trimmedKey (r.get "ID") = some k := by
  simp only [List.mem_map, List.mem_filterMap]
  constructor
  · rintro ⟨v, ⟨r, hr, hv⟩, hk⟩
    refine ⟨r, hr, ?_⟩
    unfold idExtract at hv
    unfold trimmedKey
    rcases hg : r.get "ID" with _ | w
    · rw [hg] at hv
      simp at hv
    · rw [hg] at hv
      cases w with
      | null => simp at hv
      | str sv =>
        by_cases he : jsTrim (jsToString (Value.str sv)) = ""
        · simp [he] at hv
        · simp only [he, beq_iff_eq, if_neg, if_false, Option.some.injEq] at hv
          subst hv
          rw [← hk]
          simp [he]
      | num qv =>
        by_cases he : jsTrim (jsToString (Value.num qv)) = ""
        · simp [he] at hv
        · simp only [he, beq_iff_eq, if_neg, if_false, Option.some.injEq] at hv
          subst hv
          rw [← hk]
          simp [he]
  · rintro ⟨r, hr, hk⟩
    unfold trimmedKey at hk
    rcases hg : r.get "ID" with _ | w
    · rw [hg] at hk
      simp at hk
    · rw [hg] at hk
      cases w with
      | null => simp at hk
      | str sv =>
        by_cases he : jsTrim (jsToString (Value.str sv)) = ""
        · simp [he] at hk
        · simp only [he, beq_iff_eq, if_neg, if_false, Option.some.injEq] at hk
          refine ⟨Value.str sv, ⟨r, hr, ?_⟩, hk⟩
          unfold idExtract
          rw [hg]
          simp [he]
      | num qv =>
        by_cases he : jsTrim (jsToString (Value.num qv)) = ""
        · simp [he] at hk
        · simp only [he, beq_iff_eq, if_neg, if_false, Option.some.injEq] at hk
          refine ⟨Value.num qv, ⟨r, hr, ?_⟩, hk⟩
          unfold idExtract
          rw [hg]
          simp [he]

/-- C3 (amended).  The exact merge reports the deduplicated set of trimmed
incoming ID keys absent from the base key-string set (the nonempty trimmed
string forms of the base ID cells); the tolerance merge reports the raw,
unrounded incoming ionMass values, in row order and with duplicates
preserved, of the rows whose rounded key is absent from the base rounded-key
set. -/
theorem C3_theorem (base incoming : Table) (bk : String) (cols : List String) :
    (mergeExact base incoming cols).2.Nodup ∧
    (∀ k : String, k ∈ (mergeExact base incoming cols).2 ↔
      ((∃ r ∈ incoming.rows, trimmedKey (r.get "ID") = some k) ∧
       ¬ k ∈ (base.rows.map (fun r => jsTrim (jsToStringOpt (r.get "ID")))).filter
          (fun s2 => !(s2 == "")))) ∧
    ((mergeTolerance base incoming bk cols).2 =
      incoming.rows.filterMap (fun r => tolUnmatchedExtract base bk r)) ∧
    (∀ v : Value, (mergeTolerance base incoming bk cols).2.count v =
      (incoming.rows.filter (fun r => tolUnmatchedExtract base bk r == some v)).length) := by
  refine ⟨?_, ?_, ?_, ?_⟩
  · unfold mergeExact
    simp only
    exact List.Nodup.filter _ (dedupFirst_nodup _)
  · intro k
    unfold mergeExact
    simp only
    rw [List.mem_filter, dedupFirst_mem, uploadedKeys_mem]
    have hcont : ∀ b : Bool, ((!b) = true ↔ ¬ b = true) := by
      intro b
      cases b <;> simp
    rw [hcont]
    have hmem : (((base.rows.map (fun r => jsTrim (jsToStringOpt (r.get "ID")))).filter
        (fun s2 => !(s2 == ""))).contains k = true) ↔
        k ∈ (base.rows.map (fun r => jsTrim (jsToStringOpt (r.get "ID")))).filter
          (fun s2 => !(s2 == "")) := by
      simp
    rw [hmem]
  · rfl
  · intro v
    unfold mergeTolerance
    simp only
    rw [count_filterMap]
    refine congrArg List.length (List.filter_congr ?_)
    intro r _
    unfold tolUnmatchedExtract
    rcases r.get "ionMass" with _ | w
    · rfl
    · cases w with
      | null => rfl
      | str sv =>
        rcases jsNumber (some (Value.str sv)) with _ | q
        · rfl
        · by_cases hc : (base.rows.filterMap (fun rb =>
              match rb.get bk with
              | none => none
              | some Value.null => none
              | some vb => (jsNumber (some vb)).map toFixed3)).contains (toFixed3 q) = true
          · simp [hc]
          · simp [hc]
      | num qv =>
        rcases jsNumber (some (Value.num qv)) with _ | q
        · rfl
        · by_cases hc : (base.rows.filterMap (fun rb =>
              match rb.get bk with
              | none => none
              | some Value.null => none
              | some vb => (jsNumber (some vb)).map toFixed3)).contains (toFixed3 q) = true
          · simp [hc]
          · simp [hc]

/-- C3, counterexample: the tolerance merge reports the unmatched mass
100.1228 twice (once per incoming row), so the reported value is not a
deduplicated set as the claim states for both merges. -/
theorem C3_counterexample :
    (mergeTolerance wBase wInc "MZ" []).2 =
      [Value.num (Q.mk2 1001228 10000), Value.num (Q.mk2 1001228 10000)] ∧
    ¬ ((mergeTolerance wBase wInc "MZ" []).2.Nodup) := by
  decide

/-- C3, witness: the amended statement instantiated on the same tables; the
exact merge deduplicates (the twice-uploaded ID 9 is reported once), the
tolerance merge does not. -/

theorem C3_witness :
    ((mergeExact wBase wInc []).2 = ["9"] ∧
     (mergeTolerance wBase wInc "MZ" []).2.length = 2) ∧
    ((mergeExact wBase wInc []).2.Nodup ∧
     (∀ k : String, k ∈ (mergeExact wBase wInc []).2 ↔
       ((∃ r ∈ wInc.rows, trimmedKey (r.get "ID") = some k) ∧
        ¬ k ∈ (wBase.rows.map (fun r => jsTrim (jsToStringOpt (r.get "ID")))).filter
           (fun s2 => !(s2 == "")))) ∧
     ((mergeTolerance wBase wInc "MZ" []).2 =
       wInc.rows.filterMap (fun r => tolUnmatchedExtract wBase "MZ" r)) ∧
     (∀ v : Value, (mergeTolerance wBase wInc "MZ" []).2.count v =
       (wInc.rows.filter (fun r => tolUnmatchedExtract wBase "MZ" r == some v)).length)) :=
  ⟨by decide, C3_theorem wBase wInc "MZ" []⟩

/-! ## C8: order preservation and reassembly -/

theorem valueEq_refl (v : Value) : valueEq v v = true := by
  cases v with
  | str s => simp [valueEq]
  | num q => simp [valueEq, Q.beq]
  | null => rfl

theorem valueEqOpt_refl (x : Option Value) : valueEqOpt x x = true := by
  cases x with
  | none => rfl
  | some v => simpa [valueEqOpt] using valueEq_refl v

theorem valueEq_symm (v w : Value) (h : valueEq v w = true) : valueEq w v = true := by
  cases v <;> cases w <;> simp_all [valueEq, Q.beq]

theorem valueEqOpt_symm (x y : Option Value) (h : valueEqOpt x y = true) :
    valueEqOpt y x = true := by
  cases x <;> cases y <;> simp_all [valueEqOpt]
  exact valueEq_symm _ _ h

theorem addToGroups_flatten (gs : List (String × List Row)) (k : String) (r : Row) :
    List.Perm (((addToGroups gs k r).map Prod.snd).flatten)
      ((gs.map Prod.snd).flatten ++ [r]) := by
  induction gs with
  | nil => rfl
  | cons p rest ih =>
    rcases p with ⟨k2, g⟩
    by_cases hk : k2 = k
    · unfold addToGroups
      rw [if_pos (by simp [hk])]
      simp only [List.map_cons, List.flatten_cons]
      rw [List.append_assoc, List.append_assoc]
      exact List.Perm.append_left g List.perm_append_comm
    · unfold addToGroups
      rw [if_neg (by simp [hk])]
      simp only [List.map_cons, List.flatten_cons]
      rw [List.append_assoc]
      exact List.Perm.append_left g ih

theorem append_shuffle_eq (A B C : List Row) (r : Row) :
    (A ++ (B ++ [r])) ++ C = (A ++ B) ++ (r :: C) := by
  simp [List.append_assoc]

theorem append_shuffle_perm (A B C : List Row) (r : Row) :
    List.Perm (((A ++ [r]) ++ B) ++ C) ((A ++ B) ++ (r :: C)) := by
  have h1 : ((A ++ [r]) ++ B) ++ C = A ++ (r :: (B ++ C)) := by
    simp [List.append_assoc]
  have h2 : (A ++ B) ++ (r :: C) = A ++ (B ++ (r :: C)) := by
    simp [List.append_assoc]
  rw [h1, h2]
  exact List.Perm.append_left A List.perm_middle.symm

theorem splitGroups_foldl_perm (rows : List Row) :
    ∀ (acc : List (String × List Row) × List Row),
      List.Perm
        ((((rows.foldl (fun acc row =>
            match annKey row with
            | some k => (addToGroups acc.1 k row, acc.2)
            | none => (acc.1, acc.2 ++ [row])) acc).1.map Prod.snd).flatten) ++
          ((rows.foldl (fun acc row =>
            match annKey row with
            | some k => (addToGroups acc.1 k row, acc.2)
            | none => (acc.1, acc.2 ++ [row])) acc).2))
        ((acc.1.map Prod.snd).flatten ++ acc.2 ++ rows) := by
  induction rows with
  | nil =>
    intro acc
    simp
  | cons r rows ih =>
    intro acc
    simp only [List.foldl_cons]
    rcases hk : annKey r with _ | k
    · refine (ih _).trans ?_
      simp only
      rw [← append_shuffle_eq]
    · refine (ih _).trans ?_
      simp only
      refine (List.Perm.append_right rows (List.Perm.append_right acc.2
        (addToGroups_flatten acc.1 k r))).trans ?_
      exact append_shuffle_perm _ _ _ _

theorem splitGroups_perm (rows : List Row) :
    List.Perm (((splitGroups rows).1.map Prod.snd).flatten ++ (splitGroups rows).2) rows := by
  have h := splitGroups_foldl_perm rows ([], [])
  simpa [splitGroups] using h

theorem get_id_set_status (r : Row) (s : String) :
    (Row.set r "_derep_status" (Value.str s)).get "ID" = r.get "ID" :=
  Row.get_set_ne r "ID" "_derep_status" (Value.str s) (by decide)

theorem get_id_del2 (r : Row) :
    ((r.del "_qc_rsd").del "_avg_intensity").get "ID" = r.get "ID" := by
  rw [Row.get_del_ne _ _ _ (by decide), Row.get_del_ne _ _ _ (by decide)]

theorem map_mark_ids (w : Option Row) (g : List Row) :
    (g.map (fun row => if winnerMatches w row then
        Row.set row "_derep_status" (Value.str Retained)
      else Row.set row "_derep_status" (Value.str Removed))).map (fun r => r.get "ID") =
      g.map (fun r => r.get "ID") := by
  rw [List.map_map]
  refine List.map_congr_left ?_
  intro row _
  simp only [Function.comp_apply]
  by_cases h : winnerMatches w row = true
  · simp [h, get_id_set_status]
  · simp [h, get_id_set_status]

theorem processGroup_ids (bioCols qcCols : List String) (g : List Row) :
    (processGroup bioCols qcCols g).map (fun r => r.get "ID") =
      g.map (fun r => r.get "ID") := by
  match g with
  | [] => rfl
  | [r] => simp [processGroup, get_id_set_status]
  | r1 :: r2 :: rest => exact map_mark_ids _ (r1 :: r2 :: rest)

theorem derep_final_ids_perm (t : Table) :
    List.Perm
      (((((splitGroups t.rows).1.map (fun g =>
          processGroup (bioColsOf t.headers) (qcColsOf t.headers) g.2)).flatten ++
        (splitGroups t.rows).2.map (fun r =>
          Row.set r "_derep_status" (Value.str Retained))).map
        (fun r => (r.del "_qc_rsd").del "_avg_intensity")).map (fun r => r.get "ID"))
      (t.rows.map (fun r => r.get "ID")) := by
  rw [List.map_map]
  have h1 : ((((splitGroups t.rows).1.map (fun g =>
      processGroup (bioColsOf t.headers) (qcColsOf t.headers) g.2)).flatten ++
      (splitGroups t.rows).2.map (fun r =>
        Row.set r "_derep_status" (Value.str Retained))).map
      ((fun r => r.get "ID") ∘ (fun r => (r.del "_qc_rsd").del "_avg_intensity"))) =
      (((splitGroups t.rows).1.map (fun g =>
        processGroup (bioColsOf t.headers) (qcColsOf t.headers) g.2)).flatten ++
        (splitGroups t.rows).2.map (fun r =>
          Row.set r "_derep_status" (Value.str Retained))).map (fun r => r.get "ID") := by
    refine List.map_congr_left ?_
    intro r _
    simp only [Function.comp_apply]
    exact get_id_del2 r
  rw [h1, List.map_append]
  have h2 : (((splitGroups t.rows).1.map (fun g =>
      processGroup (bioColsOf t.headers) (qcColsOf t.headers) g.2)).flatten).map
      (fun r => r.get "ID") =
      (((splitGroups t.rows).1.map Prod.snd).flatten).map (fun r => r.get "ID") := by
    rw [List.map_flatten, List.map_flatten, List.map_map, List.map_map]
    congr 1
    refine List.map_congr_left ?_
    intro g _
    simp only [Function.comp_apply]
    exact processGroup_ids _ _ g.2
  have h3 : ((splitGroups t.rows).2.map (fun r =>
      Row.set r "_derep_status" (Value.str Retained))).map (fun r => r.get "ID") =
      ((splitGroups t.rows).2).map (fun r => r.get "ID") := by
    rw [List.map_map]
    refine List.map_congr_left ?_
    intro r _
    simp only [Function.comp_apply]
    exact get_id_set_status r Retained
  rw [h2, h3, ← List.map_append]
  exact (splitGroups_perm t.rows).map (fun r => r.get "ID")

theorem lastIdx_none (l : List (Option Value)) (x : Option Value)
    (h : ∀ b ∈ l, ¬ valueEqOpt b x = true) : lastIdx l x = none := by
  induction l with
  | nil => rfl
  | cons a t ih =>
    unfold lastIdx
    rw [ih (fun b hb => h b (List.mem_cons_of_mem a hb))]
    simp [h a (List.mem_cons_self a t)]

theorem lastIdx_lt (l : List (Option Value)) (x : Option Value) :
    ∀ i, lastIdx l x = some i →
      ∃ hi : i < l.length, valueEqOpt (l.get ⟨i, hi⟩) x = true := by
  induction l with
  | nil =>
    intro i h
    exact absurd h (by simp [lastIdx])
  | cons a t ih =>
    intro i h
    unfold lastIdx at h
    rcases hlt : lastIdx t x with _ | j
    · rw [hlt] at h
      by_cases hv : valueEqOpt a x = true
      · rw [if_pos hv] at h
        cases Option.some.inj h
        exact ⟨by simp, hv⟩
      · rw [if_neg hv] at h
        exact absurd h (by simp)
    · rw [hlt] at h
      cases Option.some.inj h
      obtain ⟨hj, hv⟩ := ih j hlt
      exact ⟨by simpa using hj, hv⟩

theorem lastIdx_self (l : List (Option Value))
    (hd : l.Pairwise (fun a b => ¬ valueEqOpt a b = true)) :
    ∀ i, ∀ hi : i < l.length, lastIdx l (l.get ⟨i, hi⟩) = some i := by
  induction l with
  | nil =>
    intro i hi
    simp at hi
  | cons a t ih =>
    intro i hi
    rcases List.pairwise_cons.mp hd with ⟨hhead, htail⟩
    rcases i with _ | i
    · show lastIdx (a :: t) a = some 0
      unfold lastIdx
      rw [lastIdx_none t a (fun b hb hc => hhead b hb (valueEqOpt_symm _ _ hc))]
      simp [valueEqOpt_refl]
    · show lastIdx (a :: t) (t.get ⟨i, _⟩) = some (i + 1)
      unfold lastIdx
      rw [ih htail i (by simpa using hi)]

theorem sortByOriginal_perm (orig l : List Row) :
    List.Perm (sortByOriginal orig l) l := by
  unfold sortByOriginal
  exact List.perm_insertionSort _ l

theorem sortByOriginal_sorted (orig l : List Row) :
    (sortByOriginal orig l).Pairwise (fun a b =>
      rankOf (orig.map (fun r => r.get "ID")) a ≤
      rankOf (orig.map (fun r => r.get "ID")) b) := by
  unfold sortByOriginal
  haveI ht : IsTotal Row (fun a b =>
      rankOf (orig.map (fun r => r.get "ID")) a ≤
      rankOf (orig.map (fun r => r.get "ID")) b) := ⟨fun a b => Nat.le_total _ _⟩
  haveI htr : IsTrans Row (fun a b =>
      rankOf (orig.map (fun r => r.get "ID")) a ≤
      rankOf (orig.map (fun r => r.get "ID")) b) := ⟨fun a b c => Nat.le_trans⟩
  exact List.sorted_insertionSort _ l

/-- The engine restores the original row order whenever the input IDs are
pairwise distinct under strict equality. -/

theorem derep_restores_order (t out : Table) (h : derep t = Except.ok out)
    (hd : (t.rows.map (fun r => r.get "ID")).Pairwise
      (fun a b => ¬ valueEqOpt a b = true)) :
    out.rows.map (fun r => r.get "ID") = t.rows.map (fun r => r.get "ID") := by
  have he := derep_ok_eq h
  have hperm0 : List.Perm (out.rows.map (fun r => r.get "ID"))
      (t.rows.map (fun r => r.get "ID")) := by
    rw [he]
    exact ((sortByOriginal_perm t.rows _).map _).trans (derep_final_ids_perm t)
  have hsorted : out.rows.Pairwise (fun a b =>
      rankOf (t.rows.map (fun r => r.get "ID")) a ≤
      rankOf (t.rows.map (fun r => r.get "ID")) b) := by
    rw [he]
    exact sortByOriginal_sorted t.rows _
  set ids := t.rows.map (fun r => r.get "ID") with hids
  set n := ids.length with hn
  have hK : (out.rows.map (fun r => rankOf ids r)).Pairwise (· ≤ ·) :=
    List.pairwise_map.mpr hsorted
  have hrank_map : out.rows.map (fun r => rankOf ids r) =
      (out.rows.map (fun r => r.get "ID")).map (fun x => (lastIdx ids x).getD n) := by
    rw [List.map_map]
    refine List.map_congr_left ?_
    intro r _
    simp only [Function.comp_apply]
    unfold rankOf
    rcases lastIdx ids (r.get "ID") with _ | m
    · rfl
    · rfl
  have hids_map : ids.map (fun x => (lastIdx ids x).getD n) = List.range n := by
    refine List.ext_getElem (by simp [hn]) ?_
    intro i h1 h2
    have hib : i < ids.length := by simpa using h1
    rw [List.getElem_map, List.getElem_range]
    have hl := lastIdx_self ids hd i hib
    rw [show ids[i] = ids.get ⟨i, hib⟩ from rfl, hl]
    rfl
  have hKperm : List.Perm (out.rows.map (fun r => rankOf ids r)) (List.range n) := by
    rw [hrank_map, ← hids_map]
    exact hperm0.map _
  have hrange_sorted : List.Sorted (· ≤ ·) (List.range n) := List.pairwise_le_range n
  have hKeq : out.rows.map (fun r => rankOf ids r) = List.range n :=
    List.eq_of_perm_of_sorted hKperm hK hrange_sorted
  have hlen : out.rows.length = n := by
    have h4 := hperm0.length_eq
    simpa [hn, hids] using h4
  refine List.ext_getElem (by simpa using hlen) ?_
  intro j h1 h2
  have hjn : j < n := by
    rw [← hlen]
    simpa using h1
  have hjo : j < out.rows.length := by simpa using h1
  rw [List.getElem_map]
  have hjm : j < (out.rows.map (fun r => rankOf ids r)).length := by simpa using hjo
  have hjr : j < (List.range n).length := by simpa using hjn
  have hrj : rankOf ids (out.rows[j]) = j := by
    have h3 : (out.rows.map (fun r => rankOf ids r))[j] = (List.range n)[j] := by
      simp only [hKeq]
    rw [List.getElem_map, List.getElem_range] at h3
    exact h3
  have hlast : lastIdx ids ((out.rows[j]).get "ID") = some j := by
    unfold rankOf at hrj
    rcases hli : lastIdx ids ((out.rows[j]).get "ID") with _ | m
    · rw [hli] at hrj
      simp only at hrj
      omega
    · rw [hli] at hrj
      simp only at hrj
      rw [hrj]
  obtain ⟨hj2, hveq⟩ := lastIdx_lt ids _ j hlast
  have hmem : ((out.rows[j]).get "ID") ∈ ids := by
    refine hperm0.mem_iff.mp ?_
    exact List.mem_map_of_mem _ (List.getElem_mem hjo)
  obtain ⟨i0, hx⟩ := List.mem_iff_get.mp hmem
  have hpw := List.pairwise_iff_get.mp hd
  rcases i0 with ⟨iv, hiv⟩
  by_cases hij : iv = j
  · subst hij
    have h8 : ids.get ⟨iv, hiv⟩ = ids[iv] := rfl
    rw [← hx, h8]
  · exfalso
    rcases Nat.lt_or_ge iv j with h5 | h5
    · have h6 := hpw ⟨iv, hiv⟩ ⟨j, hj2⟩ h5
      refine h6 ?_
      refine valueEqOpt_symm _ _ ?_
      rw [← hx] at hveq
      exact hveq
    · have h7 : j < iv := by omega
      have h6 := hpw ⟨j, hj2⟩ ⟨iv, hiv⟩ h7
      refine h6 ?_
      rw [← hx] at hveq
      exact hveq

theorem mergeExact_frame (base incoming : Table) (cols : List String) (k : String)
    (hk : ¬ k ∈ cols) :
    (mergeExact base incoming cols).1.rows.map (fun r => r.get k) =
      base.rows.map (fun r => r.get k) := by
  unfold mergeExact
  simp only
  rw [List.map_map]
  refine List.map_congr_left ?_
  intro r _
  simp only [Function.comp_apply]
  rcases trimmedKey (r.get "ID") with _ | kk
  · rfl
  · show (match mapGet (buildMap (incoming.rows.filterMap
        (fun (r2 : Row) => (trimmedKey (r2.get "ID")).map (fun k2 => (k2, r2))))) kk with
      | some m => appendFrom cols m r
      | none => r).get k = r.get k
    rcases mapGet (buildMap (incoming.rows.filterMap
        (fun (r2 : Row) => (trimmedKey (r2.get "ID")).map (fun k2 => (k2, r2))))) kk with _ | m
    · rfl
    · exact appendFrom_get_not_mem cols m k hk r

theorem mergeTolerance_frame (base incoming : Table) (bk : String) (cols : List String)
    (k : String) (hk : ¬ k ∈ cols) :
    (mergeTolerance base incoming bk cols).1.rows.map (fun r => r.get k) =
      base.rows.map (fun r => r.get k) := by
  unfold mergeTolerance
  simp only
  rw [List.map_map]
  refine List.map_congr_left ?_
  intro r _
  simp only [Function.comp_apply]
  rcases r.get bk with _ | w
  · rfl
  · cases w with
    | null => rfl
    | str sv =>
      show ((if jsTrim (jsToString (Value.str sv)) == "" then r
        else
          match jsNumber (some (Value.str sv)) with
          | none => r
          | some q =>
            match mapGet (buildMap (incoming.rows.filterMap (fun (r2 : Row) =>
                match r2.get "ionMass" with
                | none => none
                | some Value.null => none
                | some v => (jsNumber (some v)).map (fun q2 => (toFixed3 q2, r2)))))
                (toFixed3 q) with
            | some m => appendFrom cols m r
            | none => r).get k) = r.get k
      by_cases he : (jsTrim (jsToString (Value.str sv)) == "") = true
      · rw [if_pos he]
      · rw [if_neg he]
        rcases jsNumber (some (Value.str sv)) with _ | q
        · rfl
        · show (match mapGet (buildMap (incoming.rows.filterMap (fun (r2 : Row) =>
              match r2.get "ionMass" with
              | none => none
              | some Value.null => none
              | some v => (jsNumber (some v)).map (fun q2 => (toFixed3 q2, r2)))))
              (toFixed3 q) with
            | some m => appendFrom cols m r
            | none => r).get k = r.get k
          rcases mapGet (buildMap (incoming.rows.filterMap (fun (r2 : Row) =>
              match r2.get "ionMass" with
              | none => none
              | some Value.null => none
              | some v => (jsNumber (some v)).map (fun q2 => (toFixed3 q2, r2)))))
              (toFixed3 q) with _ | m
          · rfl
          · exact appendFrom_get_not_mem cols m k hk r
    | num qv =>
      show ((if jsTrim (jsToString (Value.num qv)) == "" then r
        else
          match jsNumber (some (Value.num qv)) with
          | none => r
          | some q =>
            match mapGet (buildMap (incoming.rows.filterMap (fun (r2 : Row) =>
                match r2.get "ionMass" with
                | none => none
                | some Value.null => none
                | some v => (jsNumber (some v)).map (fun q2 => (toFixed3 q2, r2)))))
                (toFixed3 q) with
            | some m => appendFrom cols m r
            | none => r).get k) = r.get k
      by_cases he : (jsTrim (jsToString (Value.num qv)) == "") = true
      · rw [if_pos he]
      · rw [if_neg he]
        rcases jsNumber (some (Value.num qv)) with _ | q
        · rfl
        · show (match mapGet (buildMap (incoming.rows.filterMap (fun (r2 : Row) =>
              match r2.get "ionMass" with
              | none => none
              | some Value.null => none
              | some v => (jsNumber (some v)).map (fun q2 => (toFixed3 q2, r2)))))
              (toFixed3 q) with
            | some m => appendFrom cols m r
            | none => r).get k = r.get k
          rcases mapGet (buildMap (incoming.rows.filterMap (fun (r2 : Row) =>
              match r2.get "ionMass" with
              | none => none
              | some Value.null => none
              | some v => (jsNumber (some v)).map (fun q2 => (toFixed3 q2, r2)))))
              (toFixed3 q) with _ | m
          · rfl
          · exact appendFrom_get_not_mem cols m k hk r

/-- C8.  The merges touch only the append columns of each row, so output
row order equals input row order; the contaminant filter returns a
subsequence of its input; the reassembly sort is a permutation of its input
sorted by the position of each row identifier in the original sequence,
with not-found identifiers ranked past every position and hence last; and
on any successful engine run with pairwise-distinct identifiers the output
identifier sequence equals the input identifier sequence. -/

theorem C8_theorem :
    (∀ base incoming : Table, ∀ cols : List String, ∀ k : String, ¬ k ∈ cols →
      (mergeExact base incoming cols).1.rows.map (fun r => r.get k) =
        base.rows.map (fun r => r.get k)) ∧
    (∀ base incoming : Table, ∀ bk : String, ∀ cols : List String, ∀ k : String, ¬ k ∈ cols →
      (mergeTolerance base incoming bk cols).1.rows.map (fun r => r.get k) =
        base.rows.map (fun r => r.get k)) ∧
    (∀ t S, ((handleApplyFilter t S).rows).Sublist t.rows) ∧
    (∀ orig l, List.Perm (sortByOriginal orig l) l ∧
      (sortByOriginal orig l).Pairwise (fun a b =>
        rankOf (orig.map (fun r => r.get "ID")) a ≤
        rankOf (orig.map (fun r => r.get "ID")) b) ∧
      (∀ r2 ∈ l, lastIdx (orig.map (fun r => r.get "ID")) (r2.get "ID") = none →
        rankOf (orig.map (fun r => r.get "ID")) r2 = orig.length) ∧
      (∀ r2 ∈ l, ∀ i, lastIdx (orig.map (fun r => r.get "ID")) (r2.get "ID") = some i →
        rankOf (orig.map (fun r => r.get "ID")) r2 = i ∧ i < orig.length)) ∧
    (∀ t out, derep t = Except.ok out →
      (t.rows.map (fun r => r.get "ID")).Pairwise (fun a b => ¬ valueEqOpt a b = true) →
      out.rows.map (fun r => r.get "ID") = t.rows.map (fun r => r.get "ID")) := by
  refine ⟨mergeExact_frame, mergeTolerance_frame, ?_, ?_, derep_restores_order⟩
  · intro t S
    exact List.filter_sublist _
  · intro orig l
    refine ⟨sortByOriginal_perm orig l, sortByOriginal_sorted orig l, ?_, ?_⟩
    · intro r2 _ hnone
      unfold rankOf
      rw [hnone]
      simp
    · intro r2 _ i hsome
      have hlt := lastIdx_lt _ _ i hsome
      obtain ⟨hi, _⟩ := hlt
      constructor
      · unfold rankOf
        rw [hsome]
      · simpa using hi

/-- C8, witness: the frame property of the exact merge instantiated on the
scenario tables, and the order-restoring engine run on scenario C. -/

theorem C8_witness :
    ((mergeExact wBase wInc ["Compound_Name"]).1.rows.map (fun r => r.get "ID") =
      wBase.rows.map (fun r => r.get "ID")) ∧
    (scenCOut.rows.map (fun r => r.get "ID") = scenC.rows.map (fun r => r.get "ID")) :=
  ⟨C8_theorem.1 wBase wInc ["Compound_Name"] "ID" (by decide),
   C8_theorem.2.2.2.2 scenC scenCOut (by rfl) (by decide)⟩
